import Mathlib

/-!
Verification of the core text-extraction logic of the word2txt repository
(`word2txt.py` and `txt-merge.py`).

Python strings are embedded as `List Char`; Python `bytes` as `List Nat`.
The XML element trees produced by `xml.etree.ElementTree` are embedded as a
rose tree `Xml` carrying the tag, the `.text` field and the child list; an
element's `iter()` traversal and `findall(".//w:p")` query are modelled as
the corresponding depth-first list operations.  A docx package is embedded
as either a non-zip file or a list of named entries whose raw bytes are
abstracted to their XML parse outcome (`Option Xml`), which is the only use
the source makes of them.  Entry names inside one package are assumed
unique, matching the name-keyed lookup of `zipfile.ZipFile.read`.

Character-class simplifications (noted where used): `str.strip` is modelled
on the ASCII/ISO whitespace characters, and `str.splitlines` on the line
boundaries listed in `isLB` below; the Unicode-only space characters are
not modelled.  All document-derived text in the source only ever contains
the modelled characters.
-/

namespace Word2txt

/-- Horizontal whitespace, the character class `[ \t]` of the regex
`re.sub(r"[ \t]+\n", "\n", text)` in `DocxText.to_text`. -/
def isHWS (c : Char) : Bool := c == ' ' || c == '\t'

/-- Line-boundary characters recognised by `str.splitlines`. -/
def isLB (c : Char) : Bool :=
  c == '\n' || c == '\r' || c == '\x0b' || c == '\x0c' ||
  c == '\x1c' || c == '\x1d' || c == '\x1e' || c == '\x85' ||
  c == '\u2028' || c == '\u2029'

/-- Characters removed by Python `str.strip()` (whitespace per `str.isspace`). -/
def isPyWS (c : Char) : Bool := c == ' ' || c == '\t' || isLB c

/-- Head character of a character list, mirroring `List.head?`. -/
def headChar : List Char → Option Char
  | [] => none
  | c :: _ => some c

/-- Last character of a character list. -/
def lastChar : List Char → Option Char
  | [] => none
  | [c] => some c
  | _ :: c :: cs => lastChar (c :: cs)

/-- Drop the longest prefix of characters satisfying `p` (left part of
`str.strip`). -/
def ldropWhile (p : Char → Bool) : List Char → List Char
  | [] => []
  | c :: cs => if p c then ldropWhile p cs else c :: cs

/-- Drop the longest suffix of characters satisfying `p` (right part of
`str.strip`). -/
def rstripWhile (p : Char → Bool) : List Char → List Char
  | [] => []
  | c :: cs =>
    match rstripWhile p cs with
    | [] => if p c then [] else [c]
    | d :: ds => c :: d :: ds

/-- Python `str.strip()`: remove leading and trailing whitespace. -/
def pyStrip (s : List Char) : List Char := rstripWhile isPyWS (ldropWhile isPyWS s)

/-- Worker of `splitlines`: `acc` holds the current line reversed.  A final
line boundary produces no trailing empty line, and `"\r\n"` counts as one
boundary, as in `str.splitlines`. -/
def slGo (acc : List Char) : List Char → List (List Char)
  | [] => [acc.reverse]
  | c :: cs =>
    if isLB c then
      match cs with
      | [] => [acc.reverse]
      | d :: cs2 =>
        if c == '\r' && d == '\n' then
          match cs2 with
          | [] => [acc.reverse]
          | _ :: _ => acc.reverse :: slGo [] cs2
        else acc.reverse :: slGo [] (d :: cs2)
    else slGo (c :: acc) cs

/-- Python `str.splitlines()`. -/
def splitlines : List Char → List (List Char)
  | [] => []
  | c :: cs => slGo [] (c :: cs)

/-- The loop `for paragraph in self.paragraphs: lines.extend(paragraph.splitlines())`. -/
def gatherLines : List (List Char) → List (List Char)
  | [] => []
  | p :: ps => splitlines p ++ gatherLines ps

/-- Python `"\n".join(lines)`. -/
def joinNl : List (List Char) → List Char
  | [] => []
  | [l] => l
  | l :: ls => l ++ '\n' :: joinNl ls

/-- Worker of `re.sub(r"[ \t]+\n", "\n", text)`: `pending` holds, reversed, a
run of space/tab characters whose fate depends on whether a newline follows. -/
def subGo (pending : List Char) : List Char → List Char
  | [] => pending.reverse
  | c :: cs =>
    if c == '\n' then '\n' :: subGo [] cs
    else if isHWS c then subGo (c :: pending) cs
    else pending.reverse ++ c :: subGo [] cs

/-- The substitution `re.sub(r"[ \t]+\n", "\n", text)`: delete every run of
spaces and tabs that immediately precedes a newline. -/
def subSpTabNl (s : List Char) : List Char := subGo [] s

/-- Worker of `re.sub(r"\n{3,}", "\n\n", text)`: `run` counts the pending
newline run, emitted capped at two. -/
def collapseGo (run : Nat) : List Char → List Char
  | [] => List.replicate (min run 2) '\n'
  | c :: cs =>
    if c == '\n' then collapseGo (run + 1) cs
    else List.replicate (min run 2) '\n' ++ c :: collapseGo 0 cs

/-- The substitution `re.sub(r"\n{3,}", "\n\n", text)`: collapse every run of
three or more newlines to exactly two. -/
def collapseNl (s : List Char) : List Char := collapseGo 0 s

/-- The `DocxText` dataclass: the aggregated paragraph lines of a document. -/
structure DocxText where
  paragraphs : List (List Char)

/-- The Text Normalizer `DocxText.to_text`. -/
def DocxText.to_text (d : DocxText) : List Char :=
  let lines := gatherLines d.paragraphs
  let text1 := joinNl lines
  let text2 := subSpTabNl text1
  let text3 := collapseNl text2
  pyStrip text3 ++ ['\n']

/-- An `xml.etree.ElementTree` element: tag, `.text` field, children. -/
inductive Xml where
  | elem (tag : List Char) (text : Option (List Char)) (children : List Xml)

/-- Tag of an element. -/
def Xml.tag : Xml → List Char
  | .elem t _ _ => t

/-- Text field of an element. -/
def Xml.text : Xml → Option (List Char)
  | .elem _ tx _ => tx

/-- Children of an element. -/
def Xml.children : Xml → List Xml
  | .elem _ _ cs => cs

mutual
/-- The `Element.iter()` traversal: the element itself followed by all its
descendants, in document (depth-first, pre-) order. -/
def Xml.iterNodes : Xml → List Xml
  | .elem t tx cs => .elem t tx cs :: Xml.iterList cs

/-- Depth-first traversal of a forest, used by `Xml.iterNodes`. -/
def Xml.iterList : List Xml → List Xml
  | [] => []
  | x :: xs => x.iterNodes ++ Xml.iterList xs
end

/-- All proper descendants of an element, in document order; the node pool
searched by `Element.findall(".//tag")`. -/
def Xml.descendants (x : Xml) : List Xml := Xml.iterList x.children

/-- The WordprocessingML namespace bound to prefix key `w` in
`_extract_paragraphs_from_xml`. -/
def wNS : List Char :=
  "http://schemas.openxmlformats.org/wordprocessingml/2006/main".toList

/-- Namespace-qualified tag `f"\x7b{ns['w']}\x7d{local}"` as produced by
`ElementTree` for a `w:`-prefixed element. -/
def wTag (localName : List Char) : List Char :=
  '\x7b' :: wNS ++ '\x7d' :: localName

/-- Qualified tag of a `w:p` (paragraph) element. -/
def wP : List Char := wTag "p".toList

/-- Qualified tag of a `w:t` (text run content) element. -/
def wT : List Char := wTag "t".toList

/-- Qualified tag of a `w:tab` element. -/
def wTab : List Char := wTag "tab".toList

/-- Qualified tag of a `w:br` (break) element. -/
def wBr : List Char := wTag "br".toList

/-- Qualified tag of a `w:cr` (carriage-return break) element. -/
def wCr : List Char := wTag "cr".toList

/-- The fragment one node contributes inside the loop of
`_extract_paragraph_text`: the text of a `w:t` node (`if node.text:` skips
`None`, and an empty text contributes nothing either way), a tab for
`w:tab`, a newline for `w:br`/`w:cr`, and nothing for any other tag. -/
def nodeToken (n : Xml) : List Char :=
  if n.tag == wT then
    match n.text with
    | some t => t
    | none => []
  else if n.tag == wTab then ['\t']
  else if n.tag == wBr || n.tag == wCr then ['\n']
  else []

/-- Python `"".join(out)`. -/
def concatAll : List (List Char) → List Char
  | [] => []
  | l :: ls => l ++ concatAll ls

/-- The function `_extract_paragraph_text`: concatenate the fragments of all
nodes of `p.iter()` in encounter order, then strip the whole result. -/
def extract_paragraph_text (p : Xml) : List Char :=
  pyStrip (concatAll (p.iterNodes.map nodeToken))

/-- Whether an element is a namespace-qualified `w:p` paragraph element. -/
def isPara (n : Xml) : Bool := n.tag == wP

/-- The query `root.findall(".//w:p", ns)`: all paragraph descendants of the
root, at any depth, in document order. -/
def findParagraphs (root : Xml) : List Xml := root.descendants.filter isPara

/-- The function `_extract_paragraphs_from_xml`: one extracted line per
paragraph element found. -/
def extract_paragraphs_from_xml (root : Xml) : List (List Char) :=
  (findParagraphs root).map extract_paragraph_text

/-- A docx input file: either not a valid zip archive (`zipfile.BadZipFile`
on open), or a zip container with a list of named entries whose bytes are
abstracted to their `ET.fromstring` outcome (`none` for `ET.ParseError`). -/
inductive DocxFile where
  | notZip
  | zip (entries : List (List Char × Option Xml))

/-- Entry names of the archive, `ZipFile.namelist()`, in archive order. -/
def DocxFile.namelist : DocxFile → List (List Char)
  | .notZip => []
  | .zip entries => entries.map Prod.fst

/-- The constant `DOCX_WORD_DIR`. -/
def DOCX_WORD_DIR : List Char := "word/".toList

/-- The constant `DOCX_MAIN_DOCUMENT`. -/
def DOCX_MAIN_DOCUMENT : List Char := "word/document.xml".toList

/-- Whether `s` starts with `pre` (`str.startswith`). -/
def lstartsWith : List Char → List Char → Bool
  | _, [] => true
  | [], _ :: _ => false
  | c :: cs, d :: ds => c == d && lstartsWith cs ds

/-- Whether `s` ends with `suf` (`str.endswith`). -/
def lendsWith (s suf : List Char) : Bool := lstartsWith s.reverse suf.reverse

/-- The function `_read_xml_from_docx`: `None` when the file is not a zip
archive, the entry is absent (`KeyError`), or the entry's bytes are not
well-formed XML (`ET.ParseError`); otherwise the parsed tree. -/
def read_xml_from_docx (f : DocxFile) (innerPath : List Char) : Option Xml :=
  match f with
  | .notZip => none
  | .zip entries =>
    match entries.find? (fun e => e.1 == innerPath) with
    | none => none
    | some e => e.2

/-- The selection predicate of `extra_xmls` in `extract_docx_text`: an entry
under `word/` that is a header, footer, footnotes or endnotes part and ends
in `.xml`. -/
def isSupplementaryName (name : List Char) : Bool :=
  lstartsWith name DOCX_WORD_DIR &&
  (lstartsWith name "word/header".toList ||
   lstartsWith name "word/footer".toList ||
   name == "word/footnotes.xml".toList ||
   name == "word/endnotes.xml".toList) &&
  lendsWith name ".xml".toList

/-- Lexicographic (codepoint) order on names, the order of Python string
comparison used by `sorted`. -/
def lexLe : List Char → List Char → Bool
  | [], _ => true
  | _ :: _, [] => false
  | c :: cs, d :: ds => if c == d then lexLe cs ds else decide (c.toNat < d.toNat)

/-- Insert a name into a sorted list of names, before the first element it
compares less-or-equal to. -/
def insertName (a : List Char) : List (List Char) → List (List Char)
  | [] => [a]
  | b :: bs => if lexLe a b then a :: b :: bs else b :: insertName a bs

/-- Stable insertion sort of names; agrees with Python `sorted` on strings,
both being stable sorts for the same total order. -/
def insSort : List (List Char) → List (List Char)
  | [] => []
  | a :: l => insertName a (insSort l)

/-- The loop `for inner in sorted(extra_xmls)` of `extract_docx_text`: a part
that fails to read or parse contributes nothing (`continue`), the rest
contribute their extracted paragraphs, in list order. -/
def extraLoop (f : DocxFile) : List (List Char) → List (List Char)
  | [] => []
  | inner :: rest =>
    (match read_xml_from_docx f inner with
     | none => []
     | some x => extract_paragraphs_from_xml x) ++ extraLoop f rest

/-- The function `extract_docx_text`: `None` when the main document part
cannot be read and parsed; otherwise the main part's paragraphs followed by
those of the sorted supplementary parts. -/
def extract_docx_text (f : DocxFile) : Option DocxText :=
  match read_xml_from_docx f DOCX_MAIN_DOCUMENT with
  | none => none
  | some main =>
    let paragraphs := extract_paragraphs_from_xml main
    let extra_xmls := f.namelist.filter isSupplementaryName
    some ⟨paragraphs ++ extraLoop f (insSort extra_xmls)⟩

/-- Output name for one converted input: `f"\x7b docx_path.stem \x7d.txt"`.
Defined for names ending in `.docx`, the only ones the converter visits. -/
def stemTxt (name : List Char) : List Char :=
  name.take (name.length - 5) ++ ".txt".toList

/-- State of the `convert_directory` loop: the two counters and the output
files written so far (name and text content). -/
structure ConvState where
  converted : Nat
  skipped : Nat
  outputs : List (List Char × List Char)

/-- One iteration of the `convert_directory` loop: a document that is not
extractable is counted as skipped and writes nothing; otherwise its
normalized text is written and it is counted as converted. -/
def convertStep (st : ConvState) (file : List Char × DocxFile) : ConvState :=
  match extract_docx_text file.2 with
  | none => { st with skipped := st.skipped + 1 }
  | some d =>
    { st with
      converted := st.converted + 1
      outputs := st.outputs ++ [(stemTxt file.1, d.to_text)] }

/-- The `for docx_path in iter_docx_files(input_dir)` loop of
`convert_directory`. -/
def convertLoop (files : List (List Char × DocxFile)) (st : ConvState) : ConvState :=
  files.foldl convertStep st

/-- Insertion of a named file into a name-sorted list, key `p.name`. -/
def insertFile (a : List Char × DocxFile) :
    List (List Char × DocxFile) → List (List Char × DocxFile)
  | [] => [a]
  | b :: bs => if lexLe a.1 b.1 then a :: b :: bs else b :: insertFile a bs

/-- Name-sorted enumeration used by `iter_docx_files`. -/
def insSortFiles : List (List Char × DocxFile) → List (List Char × DocxFile)
  | [] => []
  | a :: l => insertFile a (insSortFiles l)

/-- The function `iter_docx_files`: the `*.docx` entries of the directory in
sorted name order. -/
def iter_docx_files (files : List (List Char × DocxFile)) :
    List (List Char × DocxFile) :=
  insSortFiles (files.filter (fun nf => lendsWith nf.1 ".docx".toList))

/-- The function `convert_directory`, over a directory given as a list of
named files: convert every `.docx` file in sorted name order. -/
def convert_directory (files : List (List Char × DocxFile)) : ConvState :=
  convertLoop (iter_docx_files files) ⟨0, 0, []⟩

/-- The text codecs used by `_read_text_with_fallback` in `txt-merge.py`.
The decoders themselves live in the Python standard library, outside this
repository, so they are abstracted: a strict decoder maps bytes to a string
or fails (`UnicodeDecodeError`), and the replacing decoder
(`errors="replace"`) is total. -/
structure Codecs where
  utf8 : List Nat → Option (List Char)
  utf8sig : List Nat → Option (List Char)
  gb18030 : List Nat → Option (List Char)
  utf8Replace : List Nat → List Char

/-- The function `_read_text_with_fallback`: try UTF-8, then UTF-8 with BOM,
then GB18030; if all three fail, decode as UTF-8 replacing undecodable
bytes.  Always returns a string. -/
def read_text_with_fallback (C : Codecs) (data : List Nat) : List Char :=
  match C.utf8 data with
  | some s => s
  | none =>
    match C.utf8sig data with
    | some s => s
    | none =>
      match C.gb18030 data with
      | some s => s
      | none => C.utf8Replace data

/-- Lowercased name, for the `p.suffix.lower() == ".txt"` filter (only the
compared tail matters, so lowercasing the whole name is equivalent). -/
def lowerName (name : List Char) : List Char := name.map Char.toLower

/-- Whether the last nonempty string of `parts` ends in a newline:
`merged_parts and merged_parts[-1].endswith("\n")` specialised to the list
of appended parts. -/
def lastEndsNl (parts : List (List Char)) : Bool :=
  match parts.getLast? with
  | some l =>
    match lastChar l with
    | some c => c == '\n'
    | none => false
  | none => false

/-- Insertion of a named byte file into a name-sorted list. -/
def insertTxt (a : List Char × List Nat) :
    List (List Char × List Nat) → List (List Char × List Nat)
  | [] => [a]
  | b :: bs => if lexLe a.1 b.1 then a :: b :: bs else b :: insertTxt a bs

/-- Name-sorted enumeration of the text files, `sorted(..., key=lambda p: p.name)`. -/
def insSortTxt : List (List Char × List Nat) → List (List Char × List Nat)
  | [] => []
  | a :: l => insertTxt a (insSortTxt l)

/-- The `for i, p in enumerate(txt_files)` loop of `merge_txt_files`:
between two entries, add a newline when the previous part does not end in
one, and always add a separating blank-line newline; then append the
content. -/
def mergeGo (C : Codecs) (i : Nat) (parts : List (List Char)) :
    List (List Char × List Nat) → List (List Char)
  | [] => parts
  | (_, data) :: rest =>
    let content := read_text_with_fallback C data
    let parts1 :=
      if i != 0 && !parts.isEmpty && !lastEndsNl parts then parts ++ [['\n']]
      else parts
    let parts2 := if i != 0 then parts1 ++ [['\n']] else parts1
    mergeGo C (i + 1) (parts2 ++ [content]) rest

/-- The function `merge_txt_files`, over a source directory given as a list
of named byte files: the merged content and the count of merged files. -/
def merge_txt_files (C : Codecs) (files : List (List Char × List Nat)) :
    List Char × Nat :=
  let txt_files :=
    insSortTxt (files.filter (fun f => lendsWith (lowerName f.1) ".txt".toList))
  (concatAll (mergeGo C 0 [] txt_files), txt_files.length)

/-- Head of a string equals a newline. -/
def headIsNl : List Char → Bool
  | [] => false
  | c :: _ => c == '\n'

/-- First two characters of a string are both newlines. -/
def head2Nl : List Char → Bool
  | c :: d :: _ => c == '\n' && d == '\n'
  | _ => false

/-- Whether the string contains a space or tab immediately followed by a
newline, i.e. a line with trailing horizontal whitespace. -/
def hasBadPair : List Char → Bool
  | a :: b :: rest => (isHWS a && b == '\n') || hasBadPair (b :: rest)
  | _ => false

/-- Whether the string contains a run of three or more consecutive newlines. -/
def hasTriple : List Char → Bool
  | a :: b :: c :: rest =>
    (a == '\n' && b == '\n' && c == '\n') || hasTriple (b :: c :: rest)
  | _ => false

/-- The string ends with exactly one trailing newline. -/
def endsSingleNl (s : List Char) : Prop :=
  ∃ t, s = t ++ ['\n'] ∧ ∀ c, lastChar t = some c → (c == '\n') = false

/-- Whether a node is one of the content nodes `_extract_paragraph_text`
matches: a text run content, tab, or break element. -/
def isContentTag (n : Xml) : Bool :=
  n.tag == wT || n.tag == wTab || n.tag == wBr || n.tag == wCr

/-- A string that is nonempty and neither starts nor ends with whitespace. -/
def cleanEnds (s : List Char) : Prop :=
  s ≠ [] ∧ (∀ c, headChar s = some c → isPyWS c = false) ∧
    (∀ c, lastChar s = some c → isPyWS c = false)

/-- A `w:r` run element holding one `w:t` node with the given text. -/
def runEl (s : List Char) : Xml := .elem (wTag "r".toList) none [.elem wT (some s) []]

/-- A childless `w:tab` element. -/
def tabEl : Xml := .elem wTab none []

/-- A childless `w:br` element. -/
def brEl : Xml := .elem wBr none []

/-- A childless `w:cr` element. -/
def crEl : Xml := .elem wCr none []

/-- A `w:p` paragraph element with the given children. -/
def paraEl (children : List Xml) : Xml := .elem wP none children

/-- Fixture: a paragraph with no descendants at all. -/
def sampleEmptyPara : Xml := paraEl []

/-- Fixture: a body holding a table that contains a text paragraph and an
empty paragraph. -/
def sampleTableRoot : Xml :=
  .elem (wTag "body".toList) none
    [.elem (wTag "tbl".toList) none [paraEl [runEl "hi".toList], sampleEmptyPara]]

/-- Fixture: a zip package whose main part is `sampleTableRoot`. -/
def sampleDoc : DocxFile := .zip [(DOCX_MAIN_DOCUMENT, some sampleTableRoot)]

/-- Fixture: a zip package whose main part holds exactly one empty
paragraph, so its extracted text is whitespace-only. -/
def sampleWsDoc : DocxFile :=
  .zip [(DOCX_MAIN_DOCUMENT, some (.elem (wTag "body".toList) none [paraEl []]))]

/-- Fixture: a header part with one paragraph reading `H1`. -/
def sampleHdr1 : Xml := .elem (wTag "hdr".toList) none [paraEl [runEl "H1".toList]]

/-- Fixture: a header part with one paragraph reading `H2`. -/
def sampleHdr2 : Xml := .elem (wTag "hdr".toList) none [paraEl [runEl "H2".toList]]

/-- Fixture: concrete codecs where strict UTF-8 decoding is byte-wise
`Char.ofNat` and the other decoders always fail. -/
def asciiCodecs : Codecs :=
  ⟨fun d => some (d.map Char.ofNat), fun _ => none, fun _ => none, fun _ => []⟩

/-! Lemmas about the character classes and pattern predicates. -/

theorem ne_nl_of_hws {c : Char} (h : isHWS c = true) : (c == '\n') = false := by
  simp only [isHWS, Bool.or_eq_true, beq_iff_eq] at h
  rcases h with h | h <;> subst h <;> decide

theorem hws_isPyWS {c : Char} (h : isHWS c = true) : isPyWS c = true := by
  simp only [isHWS, Bool.or_eq_true] at h
  rcases h with h | h <;> simp [isPyWS, h]

theorem lb_isPyWS {c : Char} (h : isLB c = true) : isPyWS c = true := by
  simp [isPyWS, h]

theorem headIsNl_append {l : List Char} (m : List Char) (h : l ≠ []) :
    headIsNl (l ++ m) = headIsNl l := by
  cases l with
  | nil => exact absurd rfl h
  | cons a t => rfl

theorem hasBadPair_cons (a : Char) (l : List Char) :
    hasBadPair (a :: l) = ((isHWS a && headIsNl l) || hasBadPair l) := by
  cases l <;> simp [hasBadPair, headIsNl]

theorem head2Nl_cons (b : Char) (m : List Char) :
    head2Nl (b :: m) = ((b == '\n') && headIsNl m) := by
  cases m <;> simp [head2Nl, headIsNl]

theorem hasTriple_cons (a : Char) (l : List Char) :
    hasTriple (a :: l) = ((a == '\n' && head2Nl l) || hasTriple l) := by
  cases l with
  | nil => simp [hasTriple, head2Nl]
  | cons b m => cases m <;> simp [hasTriple, head2Nl, Bool.and_assoc]

theorem hasBadPair_append_right {l m : List Char} (h : hasBadPair (l ++ m) = false) :
    hasBadPair m = false := by
  induction l with
  | nil => exact h
  | cons a t ih =>
    rw [List.cons_append, hasBadPair_cons] at h
    simp only [Bool.or_eq_false_iff] at h
    exact ih h.2

theorem hasBadPair_append_left {l m : List Char} (h : hasBadPair (l ++ m) = false) :
    hasBadPair l = false := by
  induction l with
  | nil => rfl
  | cons a t ih =>
    rw [List.cons_append, hasBadPair_cons] at h
    simp only [Bool.or_eq_false_iff] at h
    rw [hasBadPair_cons]
    simp only [Bool.or_eq_false_iff]
    refine ⟨?_, ih h.2⟩
    rcases t with _ | ⟨b, t2⟩
    · simp [headIsNl]
    · rw [headIsNl_append m (by simp)] at h
      exact h.1

theorem hasTriple_append_right {l m : List Char} (h : hasTriple (l ++ m) = false) :
    hasTriple m = false := by
  induction l with
  | nil => exact h
  | cons a t ih =>
    rw [List.cons_append, hasTriple_cons] at h
    simp only [Bool.or_eq_false_iff] at h
    exact ih h.2

theorem hasBadPair_of_no_nl {l : List Char} (h : ∀ c ∈ l, (c == '\n') = false) :
    hasBadPair l = false := by
  induction l with
  | nil => rfl
  | cons a t ih =>
    rw [hasBadPair_cons]
    simp only [Bool.or_eq_false_iff]
    constructor
    · rcases t with _ | ⟨b, t2⟩
      · simp [headIsNl]
      · have hb := h b (by simp)
        simp [headIsNl, hb]
    · exact ih fun c hc => h c (List.mem_cons_of_mem _ hc)

theorem hasBadPair_replicate_nl (k : Nat) (l : List Char) :
    hasBadPair (List.replicate k '\n' ++ l) = hasBadPair l := by
  induction k with
  | zero => simp
  | succ n ih =>
    rw [List.replicate_succ, List.cons_append, hasBadPair_cons, ih]
    simp [show isHWS '\n' = false from by decide]

theorem headIsNl_replicate_succ (n : Nat) (l : List Char) :
    headIsNl (List.replicate (n + 1) '\n' ++ l) = true := by
  rw [List.replicate_succ]
  simp [headIsNl]

theorem hasTriple_le2_cons {k : Nat} (hk : k ≤ 2) {c : Char} (hc : (c == '\n') = false)
    (l : List Char) :
    hasTriple (List.replicate k '\n' ++ c :: l) = hasTriple l := by
  interval_cases k <;>
    simp [List.replicate, hasTriple_cons, head2Nl_cons, headIsNl, hc]

theorem hasTriple_replicate_ge3 {k : Nat} (hk : 3 ≤ k) (l : List Char) :
    hasTriple (List.replicate k '\n' ++ l) = true := by
  obtain ⟨m, rfl⟩ : ∃ m, k = m + 3 := ⟨k - 3, by omega⟩
  simp [List.replicate_succ, hasTriple]

theorem hasTriple_append_left {l m : List Char} (h : hasTriple (l ++ m) = false) :
    hasTriple l = false := by
  induction l with
  | nil => rfl
  | cons a t ih =>
    rw [List.cons_append, hasTriple_cons] at h
    simp only [Bool.or_eq_false_iff] at h
    rw [hasTriple_cons]
    simp only [Bool.or_eq_false_iff]
    refine ⟨?_, ih h.2⟩
    rcases t with _ | ⟨b, t2⟩
    · simp [head2Nl]
    · rcases t2 with _ | ⟨c2, t3⟩
      · simp [head2Nl]
      · exact h.1

/-! Lemmas about heads, lasts, and the stripping functions. -/

theorem lastChar_cons {t : List Char} (h : t ≠ []) (a : Char) :
    lastChar (a :: t) = lastChar t := by
  cases t with
  | nil => exact absurd rfl h
  | cons b t2 => rfl

theorem lastChar_append (l : List Char) {m : List Char} (h : m ≠ []) :
    lastChar (l ++ m) = lastChar m := by
  induction l with
  | nil => rfl
  | cons a t ih =>
    have ht : t ++ m ≠ [] := by simp [h]
    rw [List.cons_append, lastChar_cons ht, ih]

theorem lastChar_concat (l : List Char) (a : Char) : lastChar (l ++ [a]) = some a := by
  rw [lastChar_append l (by simp)]
  rfl

theorem headChar_append {l : List Char} (m : List Char) (h : l ≠ []) :
    headChar (l ++ m) = headChar l := by
  cases l with
  | nil => exact absurd rfl h
  | cons a t => rfl

theorem ldropWhile_head {p : Char → Bool} {l : List Char} {c : Char}
    (h : headChar (ldropWhile p l) = some c) : p c = false := by
  induction l with
  | nil => simp [ldropWhile, headChar] at h
  | cons a t ih =>
    cases hp : p a with
    | true =>
      simp only [ldropWhile, hp, if_true] at h
      exact ih h
    | false =>
      simp [ldropWhile, hp, headChar] at h
      exact h ▸ hp

theorem ldropWhile_eq_self {p : Char → Bool} {l : List Char}
    (h : ∀ c, headChar l = some c → p c = false) : ldropWhile p l = l := by
  cases l with
  | nil => rfl
  | cons a t =>
    have := h a rfl
    simp [ldropWhile, this]

theorem ldropWhile_eq_nil {p : Char → Bool} {l : List Char}
    (h : ∀ c ∈ l, p c = true) : ldropWhile p l = [] := by
  induction l with
  | nil => rfl
  | cons a t ih =>
    have ha := h a (by simp)
    simp only [ldropWhile, ha, if_true]
    exact ih fun c hc => h c (List.mem_cons_of_mem _ hc)

theorem ldropWhile_suffix (p : Char → Bool) (l : List Char) :
    ∃ m, l = m ++ ldropWhile p l := by
  induction l with
  | nil => exact ⟨[], rfl⟩
  | cons a t ih =>
    cases hp : p a with
    | true =>
      obtain ⟨m, hm⟩ := ih
      refine ⟨a :: m, ?_⟩
      simp only [ldropWhile, hp, if_true, List.cons_append]
      rw [← hm]
    | false => exact ⟨[], by simp [ldropWhile, hp]⟩

theorem mem_ldropWhile {p : Char → Bool} {l : List Char} {c : Char}
    (h : c ∈ ldropWhile p l) : c ∈ l := by
  obtain ⟨m, hm⟩ := ldropWhile_suffix p l
  rw [hm]
  exact List.mem_append_right m h

theorem rstripWhile_last {p : Char → Bool} {l : List Char} {c : Char}
    (h : lastChar (rstripWhile p l) = some c) : p c = false := by
  induction l with
  | nil => simp [rstripWhile, lastChar] at h
  | cons a t ih =>
    rw [rstripWhile] at h
    cases hr : rstripWhile p t with
    | nil =>
      rw [hr] at h
      cases hp : p a with
      | true => simp [hp, lastChar] at h
      | false =>
        simp only [hp, if_false, lastChar, Option.some.injEq] at h
        subst h
        exact hp
    | cons d ds =>
      rw [hr] at h
      rw [show lastChar (a :: d :: ds) = lastChar (d :: ds) from rfl] at h
      exact ih (hr ▸ h)

theorem rstripWhile_eq_self {p : Char → Bool} {l : List Char}
    (h : ∀ c, lastChar l = some c → p c = false) : rstripWhile p l = l := by
  induction l with
  | nil => rfl
  | cons a t ih =>
    cases t with
    | nil =>
      have := h a rfl
      simp [rstripWhile, this]
    | cons b t2 =>
      have ht : rstripWhile p (b :: t2) = b :: t2 :=
        ih fun c hc => h c (by rwa [lastChar_cons (by simp) a])
      rw [rstripWhile, ht]

theorem rstripWhile_prefix (p : Char → Bool) (l : List Char) :
    ∃ m, l = rstripWhile p l ++ m := by
  induction l with
  | nil => exact ⟨[], rfl⟩
  | cons a t ih =>
    obtain ⟨m, hm⟩ := ih
    rw [rstripWhile]
    cases hr : rstripWhile p t with
    | nil =>
      cases hp : p a with
      | true => exact ⟨a :: t, by simp [hp]⟩
      | false => exact ⟨t, by simp [hp]⟩
    | cons d ds =>
      refine ⟨m, ?_⟩
      rw [hr] at hm
      simp only [List.cons_append]
      exact congrArg (a :: ·) hm

theorem mem_rstripWhile {p : Char → Bool} {l : List Char} {c : Char}
    (h : c ∈ rstripWhile p l) : c ∈ l := by
  obtain ⟨m, hm⟩ := rstripWhile_prefix p l
  rw [hm]
  exact List.mem_append_left m h

theorem rstripWhile_concat_true {p : Char → Bool} {l : List Char} {a : Char}
    (hl : ∀ c, lastChar l = some c → p c = false) (ha : p a = true) :
    rstripWhile p (l ++ [a]) = l := by
  induction l with
  | nil => simp [rstripWhile, ha]
  | cons b t ih =>
    have ih2 : rstripWhile p (t ++ [a]) = t := by
      cases t with
      | nil => exact ih fun c hc => by simp [lastChar] at hc
      | cons c2 t2 => exact ih fun c hc => hl c (by rwa [lastChar_cons (by simp) b])
    cases t with
    | nil =>
      have hb := hl b rfl
      rw [List.cons_append, rstripWhile, ih2]
      simp [hb]
    | cons c2 t2 =>
      rw [List.cons_append, rstripWhile, ih2]

theorem rstripWhile_headChar (p : Char → Bool) (l : List Char) :
    rstripWhile p l = [] ∨ headChar (rstripWhile p l) = headChar l := by
  cases l with
  | nil => exact Or.inl rfl
  | cons a t =>
    rw [rstripWhile]
    cases hr : rstripWhile p t with
    | nil =>
      cases hp : p a with
      | true => left; simp [hp]
      | false => right; simp [hp, headChar]
    | cons d ds => right; rfl

theorem pyStrip_head {s : List Char} {c : Char}
    (h : headChar (pyStrip s) = some c) : isPyWS c = false := by
  rw [pyStrip] at h
  rcases rstripWhile_headChar isPyWS (ldropWhile isPyWS s) with hnil | hhead
  · rw [hnil] at h
    simp [headChar] at h
  · rw [hhead] at h
    exact ldropWhile_head h

theorem pyStrip_last {s : List Char} {c : Char}
    (h : lastChar (pyStrip s) = some c) : isPyWS c = false :=
  rstripWhile_last h

theorem pyStrip_idem (s : List Char) : pyStrip (pyStrip s) = pyStrip s := by
  rw [show pyStrip (pyStrip s)
        = rstripWhile isPyWS (ldropWhile isPyWS (pyStrip s)) from rfl]
  rw [ldropWhile_eq_self fun c hc => pyStrip_head hc]
  exact rstripWhile_eq_self fun c hc => pyStrip_last hc

theorem pyStrip_eq_nil {s : List Char} (h : ∀ c ∈ s, isPyWS c = true) :
    pyStrip s = [] := by
  rw [pyStrip, ldropWhile_eq_nil h]
  rfl

theorem pyStrip_eq_self {s : List Char}
    (h1 : ∀ c, headChar s = some c → isPyWS c = false)
    (h2 : ∀ c, lastChar s = some c → isPyWS c = false) : pyStrip s = s := by
  rw [pyStrip, ldropWhile_eq_self h1, rstripWhile_eq_self h2]

theorem mem_pyStrip {s : List Char} {c : Char} (h : c ∈ pyStrip s) : c ∈ s :=
  mem_ldropWhile (mem_rstripWhile h)

theorem hasBadPair_pyStrip {s : List Char} (h : hasBadPair s = false) :
    hasBadPair (pyStrip s) = false := by
  obtain ⟨m1, hm1⟩ := ldropWhile_suffix isPyWS s
  have h1 : hasBadPair (ldropWhile isPyWS s) = false :=
    hasBadPair_append_right (hm1 ▸ h)
  obtain ⟨m2, hm2⟩ := rstripWhile_prefix isPyWS (ldropWhile isPyWS s)
  exact hasBadPair_append_left (hm2 ▸ h1)

theorem hasTriple_pyStrip {s : List Char} (h : hasTriple s = false) :
    hasTriple (pyStrip s) = false := by
  obtain ⟨m1, hm1⟩ := ldropWhile_suffix isPyWS s
  have h1 : hasTriple (ldropWhile isPyWS s) = false :=
    hasTriple_append_right (hm1 ▸ h)
  obtain ⟨m2, hm2⟩ := rstripWhile_prefix isPyWS (ldropWhile isPyWS s)
  exact hasTriple_append_left (hm2 ▸ h1)

theorem hasBadPair_tail {a : Char} {l : List Char} (h : hasBadPair (a :: l) = false) :
    hasBadPair l = false := by
  rw [hasBadPair_cons] at h
  exact (Bool.or_eq_false_iff.mp h).2

theorem hasTriple_tail {a : Char} {l : List Char} (h : hasTriple (a :: l) = false) :
    hasTriple l = false := by
  rw [hasTriple_cons] at h
  exact (Bool.or_eq_false_iff.mp h).2

/-! Lemmas about the two regex substitutions of the Text Normalizer. -/

theorem hasBadPair_hws_append {l m : List Char} (hl : ∀ c ∈ l, isHWS c = true)
    (hm : hasBadPair m = false) (hmh : headIsNl m = false) :
    hasBadPair (l ++ m) = false := by
  induction l with
  | nil => exact hm
  | cons a t ih =>
    rw [List.cons_append, hasBadPair_cons]
    have ht := ih fun c hc => hl c (List.mem_cons_of_mem _ hc)
    have hhead : headIsNl (t ++ m) = false := by
      cases t with
      | nil => exact hmh
      | cons b t2 =>
        have hb := ne_nl_of_hws (hl b (by simp))
        simp [headIsNl, hb]
    simp [hhead, ht]

theorem subGo_no_bad (s : List Char) : ∀ pending : List Char,
    (∀ c ∈ pending, isHWS c = true) → hasBadPair (subGo pending s) = false := by
  induction s with
  | nil =>
    intro pending hp
    rw [subGo]
    exact hasBadPair_of_no_nl fun c hc => ne_nl_of_hws (hp c (List.mem_reverse.mp hc))
  | cons a t ih =>
    intro pending hp
    cases ha : a == '\n' with
    | true =>
      simp only [subGo, ha, if_true]
      rw [hasBadPair_cons]
      have hrec := ih [] (by simp)
      simp [show isHWS '\n' = false from by decide, hrec]
    | false =>
      cases hw : isHWS a with
      | true =>
        simp only [subGo, ha, hw, Bool.false_eq_true, if_false, if_true]
        refine ih _ fun c hc => ?_
        rcases List.mem_cons.mp hc with rfl | hc2
        · exact hw
        · exact hp c hc2
      | false =>
        simp only [subGo, ha, hw, Bool.false_eq_true, if_false]
        have h1 : hasBadPair (a :: subGo [] t) = false := by
          rw [hasBadPair_cons]
          have hrec := ih [] (by simp)
          simp [hw, hrec]
        refine hasBadPair_hws_append (fun c hc => hp c (List.mem_reverse.mp hc)) h1 ?_
        simp [headIsNl, ha]

theorem subSpTabNl_no_bad (s : List Char) : hasBadPair (subSpTabNl s) = false :=
  subGo_no_bad s [] (by simp)

theorem subGo_id (s : List Char) : ∀ pending : List Char,
    (∀ c ∈ pending, isHWS c = true) →
    hasBadPair (pending.reverse ++ s) = false →
    subGo pending s = pending.reverse ++ s := by
  induction s with
  | nil =>
    intro pending hp h
    rw [subGo]
    simp
  | cons a t ih =>
    intro pending hp h
    cases ha : a == '\n' with
    | true =>
      have haeq : a = '\n' := by simpa using ha
      subst haeq
      have hpe : pending = [] := by
        cases hpq : pending with
        | nil => rfl
        | cons q qs =>
          exfalso
          rw [hpq] at h
          have h2 : hasBadPair (q :: '\n' :: t) = false := by
            have heq : (q :: qs).reverse ++ '\n' :: t
                = qs.reverse ++ (q :: '\n' :: t) := by
              simp
            rw [heq] at h
            exact hasBadPair_append_right h
          rw [hasBadPair_cons] at h2
          have hq : isHWS q = true := hp q (hpq ▸ List.mem_cons_self q qs)
          simp [hq, headIsNl] at h2
      subst hpe
      simp only [subGo, ha, if_true, List.reverse_nil, List.nil_append] at h ⊢
      rw [ih [] (by simp) (by simpa using hasBadPair_tail h)]
      simp
    | false =>
      cases hw : isHWS a with
      | true =>
        simp only [subGo, ha, hw, Bool.false_eq_true, if_false, if_true]
        have hp2 : ∀ c ∈ a :: pending, isHWS c = true := by
          intro c hc
          rcases List.mem_cons.mp hc with rfl | hc2
          · exact hw
          · exact hp c hc2
        have heq : (a :: pending).reverse ++ t = pending.reverse ++ a :: t := by
          simp
        rw [ih (a :: pending) hp2 (by rw [heq]; exact h), heq]
      | false =>
        simp only [subGo, ha, hw, Bool.false_eq_true, if_false]
        have ht : hasBadPair t = false := hasBadPair_tail (hasBadPair_append_right h)
        have hgo : subGo [] t = t := by
          have := ih [] (by simp) (by simpa using ht)
          simpa using this
        rw [hgo]

theorem collapseGo_headIsNl_pos {s : List Char} : ∀ {run : Nat}, 1 ≤ run →
    headIsNl (collapseGo run s) = true := by
  induction s with
  | nil =>
    intro run h
    rw [collapseGo]
    obtain ⟨n, hn⟩ : ∃ n, min run 2 = n + 1 := ⟨min run 2 - 1, by omega⟩
    rw [hn, List.replicate_succ]
    simp [headIsNl]
  | cons a t ih =>
    intro run h
    cases ha : a == '\n' with
    | true =>
      simp only [collapseGo, ha, if_true]
      exact ih (by omega)
    | false =>
      simp only [collapseGo, ha, Bool.false_eq_true, if_false]
      obtain ⟨n, hn⟩ : ∃ n, min run 2 = n + 1 := ⟨min run 2 - 1, by omega⟩
      rw [hn]
      exact headIsNl_replicate_succ n _

theorem collapseGo_headIsNl_zero (s : List Char) :
    headIsNl (collapseGo 0 s) = headIsNl s := by
  cases s with
  | nil => rfl
  | cons a t =>
    cases ha : a == '\n' with
    | true =>
      simp only [collapseGo, ha, if_true]
      rw [collapseGo_headIsNl_pos (by omega)]
      simp [headIsNl, ha]
    | false =>
      simp only [collapseGo, ha, Bool.false_eq_true, if_false]
      simp [headIsNl]

theorem collapseGo_no_triple (s : List Char) : ∀ run : Nat,
    hasTriple (collapseGo run s) = false := by
  induction s with
  | nil =>
    intro run
    rw [collapseGo]
    have hk : min run 2 ≤ 2 := Nat.min_le_right run 2
    set k := min run 2 with hkdef
    interval_cases k <;> simp [List.replicate, hasTriple]
  | cons a t ih =>
    intro run
    cases ha : a == '\n' with
    | true =>
      simp only [collapseGo, ha, if_true]
      exact ih _
    | false =>
      simp only [collapseGo, ha, Bool.false_eq_true, if_false]
      rw [hasTriple_le2_cons (Nat.min_le_right run 2) ha]
      exact ih 0

theorem collapseGo_no_bad {s : List Char} (h : hasBadPair s = false) :
    ∀ run : Nat, hasBadPair (collapseGo run s) = false := by
  induction s with
  | nil =>
    intro run
    rw [collapseGo]
    have : List.replicate (min run 2) '\n' = List.replicate (min run 2) '\n' ++ [] := by
      simp
    rw [this, hasBadPair_replicate_nl]
    rfl
  | cons a t ih =>
    intro run
    cases ha : a == '\n' with
    | true =>
      simp only [collapseGo, ha, if_true]
      exact ih (hasBadPair_tail h) _
    | false =>
      simp only [collapseGo, ha, Bool.false_eq_true, if_false]
      rw [hasBadPair_replicate_nl, hasBadPair_cons, collapseGo_headIsNl_zero t]
      rw [hasBadPair_cons] at h
      simp only [Bool.or_eq_false_iff] at h
      simp [h.1, ih h.2 0]

theorem collapseGo_id (s : List Char) : ∀ run : Nat,
    hasTriple (List.replicate run '\n' ++ s) = false →
    collapseGo run s = List.replicate run '\n' ++ s := by
  induction s with
  | nil =>
    intro run h
    have hrun : run ≤ 2 := by
      by_contra hgt
      rw [hasTriple_replicate_ge3 (by omega)] at h
      exact absurd h (by simp)
    rw [collapseGo, Nat.min_eq_left hrun]
    simp
  | cons a t ih =>
    intro run h
    cases ha : a == '\n' with
    | true =>
      have haeq : a = '\n' := by simpa using ha
      subst haeq
      have heq : List.replicate (run + 1) '\n' ++ t
          = List.replicate run '\n' ++ '\n' :: t := by
        rw [List.replicate_succ']
        simp
      simp only [collapseGo, ha, if_true]
      rw [ih (run + 1) (by rw [heq]; exact h), heq]
    | false =>
      have hrun : run ≤ 2 := by
        by_contra hgt
        rw [hasTriple_replicate_ge3 (by omega)] at h
        exact absurd h (by simp)
      have ht : hasTriple t = false :=
        hasTriple_tail (hasTriple_append_right h)
      simp only [collapseGo, ha, Bool.false_eq_true, if_false]
      rw [Nat.min_eq_left hrun, ih 0 (by simpa using ht)]
      simp

theorem collapseNl_no_triple (s : List Char) : hasTriple (collapseNl s) = false :=
  collapseGo_no_triple s 0

theorem mem_subGo {s : List Char} {c : Char} : ∀ {pending : List Char},
    c ∈ subGo pending s → c ∈ pending ∨ c ∈ s := by
  induction s with
  | nil =>
    intro pending h
    rw [subGo] at h
    exact Or.inl (List.mem_reverse.mp h)
  | cons a t ih =>
    intro pending h
    cases ha : a == '\n' with
    | true =>
      have haeq : a = '\n' := by simpa using ha
      simp only [subGo, ha, if_true] at h
      rcases List.mem_cons.mp h with rfl | h2
      · right
        rw [haeq]
        exact List.mem_cons_self _ _
      · rcases ih h2 with h3 | h3
        · exact absurd h3 (List.not_mem_nil c)
        · exact Or.inr (List.mem_cons_of_mem _ h3)
    | false =>
      cases hw : isHWS a with
      | true =>
        simp only [subGo, ha, hw, Bool.false_eq_true, if_false, if_true] at h
        rcases ih h with h3 | h3
        · rcases List.mem_cons.mp h3 with rfl | h4
          · exact Or.inr (List.mem_cons_self _ _)
          · exact Or.inl h4
        · exact Or.inr (List.mem_cons_of_mem _ h3)
      | false =>
        simp only [subGo, ha, hw, Bool.false_eq_true, if_false] at h
        rcases List.mem_append.mp h with h2 | h2
        · exact Or.inl (List.mem_reverse.mp h2)
        · rcases List.mem_cons.mp h2 with rfl | h3
          · exact Or.inr (List.mem_cons_self _ _)
          · rcases ih h3 with h4 | h4
            · exact absurd h4 (List.not_mem_nil c)
            · exact Or.inr (List.mem_cons_of_mem _ h4)

theorem mem_collapseGo {s : List Char} {c : Char} : ∀ {run : Nat},
    c ∈ collapseGo run s → c = '\n' ∨ c ∈ s := by
  induction s with
  | nil =>
    intro run h
    rw [collapseGo] at h
    exact Or.inl (List.eq_of_mem_replicate h)
  | cons a t ih =>
    intro run h
    cases ha : a == '\n' with
    | true =>
      simp only [collapseGo, ha, if_true] at h
      rcases ih h with h2 | h2
      · exact Or.inl h2
      · exact Or.inr (List.mem_cons_of_mem _ h2)
    | false =>
      simp only [collapseGo, ha, Bool.false_eq_true, if_false] at h
      rcases List.mem_append.mp h with h2 | h2
      · exact Or.inl (List.eq_of_mem_replicate h2)
      · rcases List.mem_cons.mp h2 with rfl | h3
        · exact Or.inr (List.mem_cons_self _ _)
        · rcases ih h3 with h4 | h4
          · exact Or.inl h4
          · exact Or.inr (List.mem_cons_of_mem _ h4)

/-! Lemmas about splitlines, line gathering, and joining. -/

theorem slGo_nl_cons (acc : List Char) {cs : List Char} (h : cs ≠ []) :
    slGo acc ('\n' :: cs) = acc.reverse :: slGo [] cs := by
  cases cs with
  | nil => exact absurd rfl h
  | cons d cs2 =>
    simp [slGo, show isLB '\n' = true from by decide,
      show ('\n' == '\r') = false from by decide]

theorem slGo_nonLB_cons (acc : List Char) {c : Char} (cs : List Char)
    (hc : isLB c = false) : slGo acc (c :: cs) = slGo (c :: acc) cs := by
  rw [slGo.eq_def]
  simp [hc]

theorem slGo_ne_nil (acc s : List Char) : slGo acc s ≠ [] := by
  induction acc, s using slGo.induct with
  | case1 acc => simp [slGo]
  | case2 acc c hc => simp [slGo, hc]
  | case3 acc c hc c1 hcd => simp [slGo, hc, hcd]
  | case4 acc c hc c1 hcd c2 tail ih => simp [slGo, hc, hcd]
  | case5 acc c hc c1 tail hcd ih =>
    have hcd2 : (c == '\r' && c1 == '\n') = false := by simpa using hcd
    simp [slGo, hc, hcd2]
  | case6 acc c tail hc ih =>
    have hc2 : isLB c = false := by simpa using hc
    rw [slGo_nonLB_cons acc tail hc2]
    exact ih

theorem slGo_mem {acc s : List Char} :
    ∀ seg ∈ slGo acc s, ∀ c ∈ seg, c ∈ acc ∨ c ∈ s := by
  induction acc, s using slGo.induct with
  | case1 acc =>
    intro seg hseg c hc
    simp only [slGo, List.mem_singleton] at hseg
    subst hseg
    exact Or.inl (List.mem_reverse.mp hc)
  | case2 acc c hc =>
    intro seg hseg d hd
    simp only [slGo, hc, if_true, List.mem_singleton] at hseg
    subst hseg
    exact Or.inl (List.mem_reverse.mp hd)
  | case3 acc c hc c1 hcd =>
    intro seg hseg d hd
    simp only [slGo, hc, hcd, if_true, List.mem_singleton] at hseg
    subst hseg
    exact Or.inl (List.mem_reverse.mp hd)
  | case4 acc c hc c1 hcd c2 tail ih =>
    intro seg hseg d hd
    simp only [slGo, hc, hcd, if_true] at hseg
    rcases List.mem_cons.mp hseg with rfl | h2
    · exact Or.inl (List.mem_reverse.mp hd)
    · rcases ih seg h2 d hd with h3 | h3
      · exact absurd h3 (List.not_mem_nil d)
      · exact Or.inr (List.mem_cons_of_mem _ (List.mem_cons_of_mem _ h3))
  | case5 acc c hc c1 tail hcd ih =>
    intro seg hseg d hd
    have hcd2 : (c == '\r' && c1 == '\n') = false := by simpa using hcd
    simp only [slGo, hc, hcd2, Bool.false_eq_true, if_true, if_false] at hseg
    rcases List.mem_cons.mp hseg with rfl | h2
    · exact Or.inl (List.mem_reverse.mp hd)
    · rcases ih seg h2 d hd with h3 | h3
      · exact absurd h3 (List.not_mem_nil d)
      · exact Or.inr (List.mem_cons_of_mem _ h3)
  | case6 acc c tail hc ih =>
    intro seg hseg d hd
    have hc2 : isLB c = false := by simpa using hc
    rw [slGo_nonLB_cons acc tail hc2] at hseg
    rcases ih seg hseg d hd with h3 | h3
    · rcases List.mem_cons.mp h3 with rfl | h4
      · exact Or.inr (List.mem_cons_self _ _)
      · exact Or.inl h4
    · exact Or.inr (List.mem_cons_of_mem _ h3)

theorem slGo_noLB {acc s : List Char} (hacc : ∀ c ∈ acc, isLB c = false) :
    ∀ seg ∈ slGo acc s, ∀ c ∈ seg, isLB c = false := by
  induction acc, s using slGo.induct with
  | case1 acc =>
    intro seg hseg c hc
    simp only [slGo, List.mem_singleton] at hseg
    subst hseg
    exact hacc c (List.mem_reverse.mp hc)
  | case2 acc c hc =>
    intro seg hseg d hd
    simp only [slGo, hc, if_true, List.mem_singleton] at hseg
    subst hseg
    exact hacc d (List.mem_reverse.mp hd)
  | case3 acc c hc c1 hcd =>
    intro seg hseg d hd
    simp only [slGo, hc, hcd, if_true, List.mem_singleton] at hseg
    subst hseg
    exact hacc d (List.mem_reverse.mp hd)
  | case4 acc c hc c1 hcd c2 tail ih =>
    intro seg hseg d hd
    simp only [slGo, hc, hcd, if_true] at hseg
    rcases List.mem_cons.mp hseg with rfl | h2
    · exact hacc d (List.mem_reverse.mp hd)
    · exact ih (by simp) seg h2 d hd
  | case5 acc c hc c1 tail hcd ih =>
    intro seg hseg d hd
    have hcd2 : (c == '\r' && c1 == '\n') = false := by simpa using hcd
    simp only [slGo, hc, hcd2, Bool.false_eq_true, if_true, if_false] at hseg
    rcases List.mem_cons.mp hseg with rfl | h2
    · exact hacc d (List.mem_reverse.mp hd)
    · exact ih (by simp) seg h2 d hd
  | case6 acc c tail hc ih =>
    intro seg hseg d hd
    have hc2 : isLB c = false := by simpa using hc
    rw [slGo_nonLB_cons acc tail hc2] at hseg
    refine ih ?_ seg hseg d hd
    intro e he
    rcases List.mem_cons.mp he with rfl | h4
    · exact hc2
    · exact hacc e h4

theorem joinNl_cons (l : List Char) {ls : List (List Char)} (h : ls ≠ []) :
    joinNl (l :: ls) = l ++ '\n' :: joinNl ls := by
  cases ls with
  | nil => exact absurd rfl h
  | cons m ms => rfl

theorem joinNl_slGo_append_nl {s : List Char}
    (hs : ∀ c ∈ s, isLB c = true → c = '\n') :
    ∀ acc, joinNl (slGo acc (s ++ ['\n'])) = acc.reverse ++ s := by
  induction s with
  | nil =>
    intro acc
    rw [List.nil_append]
    simp [slGo, show isLB '\n' = true from by decide, joinNl]
  | cons a s2 ih =>
    intro acc
    rw [List.cons_append]
    cases hla : isLB a with
    | true =>
      have haeq : a = '\n' := hs a (List.mem_cons_self _ _) hla
      subst haeq
      rw [slGo_nl_cons acc (by simp), joinNl_cons _ (slGo_ne_nil _ _)]
      rw [ih (fun c hc hl => hs c (List.mem_cons_of_mem _ hc) hl) []]
      simp
    | false =>
      rw [slGo_nonLB_cons acc _ hla]
      rw [ih (fun c hc hl => hs c (List.mem_cons_of_mem _ hc) hl) (a :: acc)]
      simp

theorem slGo_noLB_single {s : List Char} (hs : ∀ c ∈ s, isLB c = false) :
    ∀ acc, slGo acc s = [acc.reverse ++ s] := by
  induction s with
  | nil =>
    intro acc
    simp [slGo]
  | cons a s2 ih =>
    intro acc
    have hla : isLB a = false := hs a (List.mem_cons_self _ _)
    rw [slGo_nonLB_cons acc _ hla]
    rw [ih (fun c hc => hs c (List.mem_cons_of_mem _ hc)) (a :: acc)]
    simp

theorem splitlines_ne_nil_eq {s : List Char} (h : s ≠ []) :
    splitlines s = slGo [] s := by
  cases s with
  | nil => exact absurd rfl h
  | cons a t => rfl

theorem splitlines_mid {s1 s2 : List Char} (h1 : ∀ c ∈ s1, isLB c = false)
    (h2 : ∀ c ∈ s2, isLB c = false) (hne : s2 ≠ []) :
    splitlines (s1 ++ '\n' :: s2) = [s1, s2] := by
  have key : ∀ acc, slGo acc (s1 ++ '\n' :: s2) = (acc.reverse ++ s1) :: [s2] := by
    induction s1 with
    | nil =>
      intro acc
      rw [List.nil_append, slGo_nl_cons acc hne, slGo_noLB_single h2 []]
      simp
    | cons a t ih =>
      intro acc
      have hla : isLB a = false := h1 a (List.mem_cons_self _ _)
      rw [List.cons_append, slGo_nonLB_cons acc _ hla]
      rw [ih (fun c hc => h1 c (List.mem_cons_of_mem _ hc)) (a :: acc)]
      simp
  rw [splitlines_ne_nil_eq (by simp), key []]
  simp

theorem mem_gatherLines {ps : List (List Char)} {line : List Char}
    (h : line ∈ gatherLines ps) : ∃ p ∈ ps, line ∈ splitlines p := by
  induction ps with
  | nil => simp [gatherLines] at h
  | cons p ps ih =>
    rw [gatherLines] at h
    rcases List.mem_append.mp h with h2 | h2
    · exact ⟨p, List.mem_cons_self _ _, h2⟩
    · obtain ⟨q, hq, hl⟩ := ih h2
      exact ⟨q, List.mem_cons_of_mem _ hq, hl⟩

theorem splitlines_noLB {p : List Char} :
    ∀ line ∈ splitlines p, ∀ c ∈ line, isLB c = false := by
  cases p with
  | nil => intro line h; simp [splitlines] at h
  | cons a t =>
    intro line h c hc
    refine slGo_noLB ?_ line h c hc
    intro e he
    exact absurd he (List.not_mem_nil e)

theorem gatherLines_noLB {ps : List (List Char)} :
    ∀ line ∈ gatherLines ps, ∀ c ∈ line, isLB c = false := by
  intro line h c hc
  obtain ⟨p, _, hl⟩ := mem_gatherLines h
  exact splitlines_noLB line hl c hc

theorem mem_splitlines {p : List Char} {line : List Char} (h : line ∈ splitlines p) :
    ∀ c ∈ line, c ∈ p := by
  cases p with
  | nil => simp [splitlines] at h
  | cons a t =>
    intro c hc
    rcases slGo_mem line h c hc with h2 | h2
    · exact absurd h2 (List.not_mem_nil c)
    · exact h2

theorem mem_joinNl {ls : List (List Char)} {c : Char} (h : c ∈ joinNl ls) :
    c = '\n' ∨ ∃ l ∈ ls, c ∈ l := by
  induction ls with
  | nil => simp [joinNl] at h
  | cons l ls ih =>
    cases ls with
    | nil =>
      right
      exact ⟨l, List.mem_cons_self _ _, h⟩
    | cons m ms =>
      rw [joinNl_cons l (by simp)] at h
      rcases List.mem_append.mp h with h2 | h2
      · exact Or.inr ⟨l, List.mem_cons_self _ _, h2⟩
      · rcases List.mem_cons.mp h2 with rfl | h3
        · exact Or.inl rfl
        · rcases ih h3 with h4 | ⟨q, hq, hc⟩
          · exact Or.inl h4
          · exact Or.inr ⟨q, List.mem_cons_of_mem _ hq, hc⟩

theorem mem_concatAll {ls : List (List Char)} {c : Char} (h : c ∈ concatAll ls) :
    ∃ l ∈ ls, c ∈ l := by
  induction ls with
  | nil => simp [concatAll] at h
  | cons l ls ih =>
    rw [concatAll] at h
    rcases List.mem_append.mp h with h2 | h2
    · exact ⟨l, List.mem_cons_self _ _, h2⟩
    · obtain ⟨q, hq, hc⟩ := ih h2
      exact ⟨q, List.mem_cons_of_mem _ hq, hc⟩

/-! Assembly lemmas for the Text Normalizer invariants. -/

theorem not_hws_of_not_pyws {c : Char} (h : isPyWS c = false) : isHWS c = false := by
  cases hq : isHWS c with
  | false => rfl
  | true =>
    rw [hws_isPyWS hq] at h
    simp at h

theorem not_nl_of_not_pyws {c : Char} (h : isPyWS c = false) : (c == '\n') = false := by
  cases hq : c == '\n' with
  | false => rfl
  | true =>
    have : c = '\n' := by simpa using hq
    subst this
    rw [show isPyWS '\n' = true from by decide] at h
    simp at h

theorem hasBadPair_concat_nl {x : List Char} (hx : hasBadPair x = false)
    (hl : ∀ c, lastChar x = some c → isHWS c = false) :
    hasBadPair (x ++ ['\n']) = false := by
  induction x with
  | nil => decide
  | cons a t ih =>
    rw [List.cons_append, hasBadPair_cons]
    simp only [Bool.or_eq_false_iff]
    refine ⟨?_, ih (hasBadPair_tail hx) ?_⟩
    · cases t with
      | nil =>
        have := hl a rfl
        simp [headIsNl, this]
      | cons b t2 =>
        rw [headIsNl_append ['\n'] (by simp)]
        exact (Bool.or_eq_false_iff.mp ((hasBadPair_cons a (b :: t2)) ▸ hx)).1
    · intro c hc
      cases t with
      | nil => simp [lastChar] at hc
      | cons b t2 => exact hl c (by rwa [lastChar_cons (by simp) a])

theorem hasTriple_concat_nl {x : List Char} (hx : hasTriple x = false)
    (hl : ∀ c, lastChar x = some c → (c == '\n') = false) :
    hasTriple (x ++ ['\n']) = false := by
  induction x with
  | nil => decide
  | cons a t ih =>
    rw [List.cons_append, hasTriple_cons]
    simp only [Bool.or_eq_false_iff]
    refine ⟨?_, ih (hasTriple_tail hx) ?_⟩
    · cases t with
      | nil => simp [head2Nl]
      | cons b t2 =>
        cases t2 with
        | nil =>
          have hb : (b == '\n') = false := hl b rfl
          simp [head2Nl, headIsNl, hb]
        | cons c2 t3 =>
          exact (Bool.or_eq_false_iff.mp ((hasTriple_cons a (b :: c2 :: t3)) ▸ hx)).1
    · intro c hc
      cases t with
      | nil => simp [lastChar] at hc
      | cons b t2 => exact hl c (by rwa [lastChar_cons (by simp) a])

theorem to_text_eq (d : DocxText) :
    d.to_text
      = pyStrip (collapseNl (subSpTabNl (joinNl (gatherLines d.paragraphs))))
        ++ ['\n'] := rfl

theorem to_text_core_no_bad (ps : List (List Char)) :
    hasBadPair (pyStrip (collapseNl (subSpTabNl (joinNl (gatherLines ps))))) = false :=
  hasBadPair_pyStrip (collapseGo_no_bad (subSpTabNl_no_bad _) 0)

theorem to_text_core_no_triple (ps : List (List Char)) :
    hasTriple (pyStrip (collapseNl (subSpTabNl (joinNl (gatherLines ps))))) = false :=
  hasTriple_pyStrip (collapseNl_no_triple _)

/-! Lemmas about the paragraph extractor. -/

theorem nodeToken_wP (tx : Option (List Char)) (cs : List Xml) :
    nodeToken (.elem wP tx cs) = [] := by
  simp [nodeToken, Xml.tag,
    show wP ≠ wT from by decide,
    show wP ≠ wTab from by decide,
    show wP ≠ wBr from by decide,
    show wP ≠ wCr from by decide]

theorem nodeToken_wR (tx : Option (List Char)) (cs : List Xml) :
    nodeToken (.elem (wTag ['r']) tx cs) = [] := by
  simp [nodeToken, Xml.tag,
    show wTag ['r'] ≠ wT from by decide,
    show wTag ['r'] ≠ wTab from by decide,
    show wTag ['r'] ≠ wBr from by decide,
    show wTag ['r'] ≠ wCr from by decide]

theorem nodeToken_wT (s : List Char) (cs : List Xml) :
    nodeToken (.elem wT (some s) cs) = s := by
  simp [nodeToken, Xml.tag, Xml.text]

theorem nodeToken_wTab (tx : Option (List Char)) (cs : List Xml) :
    nodeToken (.elem wTab tx cs) = ['\t'] := by
  simp [nodeToken, Xml.tag, show wTab ≠ wT from by decide]

theorem nodeToken_wBr (tx : Option (List Char)) (cs : List Xml) :
    nodeToken (.elem wBr tx cs) = ['\n'] := by
  simp [nodeToken, Xml.tag,
    show wBr ≠ wT from by decide,
    show wBr ≠ wTab from by decide]

theorem nodeToken_wCr (tx : Option (List Char)) (cs : List Xml) :
    nodeToken (.elem wCr tx cs) = ['\n'] := by
  simp [nodeToken, Xml.tag,
    show wCr ≠ wT from by decide,
    show wCr ≠ wTab from by decide,
    show wCr ≠ wBr from by decide]

theorem nodeToken_eq_nil {n : Xml} (h : isContentTag n = false) : nodeToken n = [] := by
  rw [isContentTag] at h
  simp only [Bool.or_eq_false_iff] at h
  obtain ⟨⟨⟨h1, h2⟩, h3⟩, h4⟩ := h
  rw [nodeToken]
  simp [h1, h2, h3, h4]

theorem concatAll_eq_nil {ls : List (List Char)} (h : ∀ l ∈ ls, l = []) :
    concatAll ls = [] := by
  induction ls with
  | nil => rfl
  | cons l ls ih =>
    rw [concatAll, h l (List.mem_cons_self _ _),
      ih fun q hq => h q (List.mem_cons_of_mem _ hq)]
    rfl

theorem cleanEnds_singleton {a : Char} (h : isPyWS a = false) : cleanEnds [a] := by
  refine ⟨by simp, ?_, ?_⟩
  · intro c hc
    simp only [headChar, Option.some.injEq] at hc
    exact hc ▸ h
  · intro c hc
    simp only [lastChar, Option.some.injEq] at hc
    exact hc ▸ h

/-- C6: every string produced by the Text Normalizer `DocxText.to_text`, for
every input paragraph list, satisfies all three invariants: no line has
trailing horizontal whitespace (no space or tab immediately precedes a
newline), no run of three or more consecutive newlines occurs (at most one
blank line between content), and the string ends with exactly one trailing
newline. -/
theorem c6_normalizer_invariants (d : DocxText) :
    hasBadPair d.to_text = false ∧ hasTriple d.to_text = false ∧
      endsSingleNl d.to_text := by
  have hb := to_text_core_no_bad d.paragraphs
  have ht := to_text_core_no_triple d.paragraphs
  have hlast : ∀ c,
      lastChar (pyStrip (collapseNl (subSpTabNl (joinNl (gatherLines d.paragraphs)))))
        = some c → isPyWS c = false := fun c hc => pyStrip_last hc
  refine ⟨?_, ?_, ?_⟩
  · rw [to_text_eq]
    exact hasBadPair_concat_nl hb fun c hc => not_hws_of_not_pyws (hlast c hc)
  · rw [to_text_eq]
    exact hasTriple_concat_nl ht fun c hc => not_nl_of_not_pyws (hlast c hc)
  · exact ⟨_, to_text_eq d, fun c hc => not_nl_of_not_pyws (hlast c hc)⟩

/-- C7: the Text Normalizer is idempotent: feeding its output back through
it as a single paragraph yields the identical string. -/
theorem c7_normalizer_idempotent (d : DocxText) :
    (DocxText.mk [d.to_text]).to_text = d.to_text := by
  have hb := to_text_core_no_bad d.paragraphs
  have ht := to_text_core_no_triple d.paragraphs
  set S := pyStrip (collapseNl (subSpTabNl (joinNl (gatherLines d.paragraphs)))) with hS
  have hchar : ∀ c ∈ S, isLB c = true → c = '\n' := by
    intro c hc hlb
    have h3 := mem_pyStrip hc
    rcases mem_collapseGo h3 with h4 | h4
    · exact h4
    · rcases mem_subGo h4 with h5 | h5
      · exact absurd h5 (List.not_mem_nil c)
      · rcases mem_joinNl h5 with h6 | ⟨line, hline, hcl⟩
        · exact h6
        · exact absurd hlb (by simp [gatherLines_noLB line hline c hcl])
  have hform : d.to_text = S ++ ['\n'] := to_text_eq d
  rw [hform]
  show pyStrip (collapseNl (subSpTabNl (joinNl (gatherLines [S ++ ['\n']])))) ++ ['\n']
      = S ++ ['\n']
  have hgl : gatherLines [S ++ ['\n']] = splitlines (S ++ ['\n']) := by
    simp [gatherLines]
  have hjoin : joinNl (splitlines (S ++ ['\n'])) = S := by
    rw [splitlines_ne_nil_eq (by simp)]
    simpa using joinNl_slGo_append_nl hchar []
  rw [hgl, hjoin]
  have hsub : subSpTabNl S = S := by
    have := subGo_id S [] (by simp) (by simpa using hb)
    simpa [subSpTabNl] using this
  rw [hsub]
  have hcol : collapseNl S = S := by
    have := collapseGo_id S 0 (by simpa using ht)
    simpa [collapseNl] using this
  rw [hcol]
  have hstr : pyStrip S = S := by
    rw [hS]
    exact pyStrip_idem _
  rw [hstr]

/-- C10: the Text Normalizer never returns the empty string: the result is
exactly the single newline when the paragraphs hold no non-whitespace
content (in particular for the empty list), and such a document is written
as a one-newline output file and counted as converted, not skipped. -/
theorem c10_empty_output :
    (∀ d : DocxText, d.to_text ≠ []) ∧
    (∀ d : DocxText, (∀ p ∈ d.paragraphs, ∀ c ∈ p, isPyWS c = true) →
      d.to_text = ['\n']) ∧
    (∀ (st : ConvState) (name : List Char) (f : DocxFile) (d : DocxText),
      extract_docx_text f = some d →
      (∀ p ∈ d.paragraphs, ∀ c ∈ p, isPyWS c = true) →
      convertLoop [(name, f)] st
        = ⟨st.converted + 1, st.skipped, st.outputs ++ [(stemTxt name, ['\n'])]⟩) := by
  have hws : ∀ d : DocxText, (∀ p ∈ d.paragraphs, ∀ c ∈ p, isPyWS c = true) →
      d.to_text = ['\n'] := by
    intro d hp
    rw [to_text_eq]
    have hall : ∀ c ∈ collapseNl (subSpTabNl (joinNl (gatherLines d.paragraphs))),
        isPyWS c = true := by
      intro c hc
      rcases mem_collapseGo hc with rfl | h2
      · decide
      · rcases mem_subGo h2 with h3 | h3
        · exact absurd h3 (List.not_mem_nil c)
        · rcases mem_joinNl h3 with rfl | ⟨line, hline, hcl⟩
          · decide
          · obtain ⟨p, hpp, hlp⟩ := mem_gatherLines hline
            exact hp p hpp c (mem_splitlines hlp c hcl)
    rw [pyStrip_eq_nil hall]
    rfl
  refine ⟨?_, hws, ?_⟩
  · intro d
    rw [to_text_eq]
    simp
  · intro st name f d hext hp
    have h1 : convertLoop [(name, f)] st = convertStep st (name, f) := rfl
    have h2 : convertStep st (name, f)
        = { st with
            converted := st.converted + 1
            outputs := st.outputs ++ [(stemTxt name, d.to_text)] } := by
      simp [convertStep, hext]
    rw [h1, h2, hws d hp]

/-- Witness for C10 at concrete inputs: a whitespace-only paragraph list
normalizes to one newline, and converting a package holding one empty
paragraph writes a one-newline file and counts it as converted. -/
theorem c10_empty_output_witness :
    (DocxText.mk [[' ', '\t']]).to_text = ['\n'] ∧
    convertLoop [("doc.docx".toList, sampleWsDoc)] ⟨0, 0, []⟩
      = ⟨1, 0, [("doc.txt".toList, ['\n'])]⟩ := by
  constructor
  · exact c10_empty_output.2.1 (DocxText.mk [[' ', '\t']]) (by decide)
  · have h := c10_empty_output.2.2 ⟨0, 0, []⟩ "doc.docx".toList sampleWsDoc
      (DocxText.mk [[]]) rfl (by decide)
    exact h

/-- C1: the Paragraph Text Extractor returns exactly one line per
namespace-qualified `w:p` element of the tree, in document (depth-first)
order: the result is the extraction map over the document-order paragraph
list, its length equals the number of paragraph descendants, a paragraph
nested at any depth (for example inside a table) contributes its line, and
a paragraph with no matching descendant nodes yields the empty string,
retained in the list rather than dropped. -/
theorem c1_paragraph_lines (root : Xml) :
    extract_paragraphs_from_xml root
        = (findParagraphs root).map extract_paragraph_text ∧
    (extract_paragraphs_from_xml root).length
        = (root.descendants.filter isPara).length ∧
    (∀ x ∈ root.descendants, isPara x = true →
      extract_paragraph_text x ∈ extract_paragraphs_from_xml root) ∧
    (∀ p ∈ findParagraphs root,
      (∀ n ∈ p.iterNodes, isContentTag n = false) →
      extract_paragraph_text p = []) := by
  refine ⟨rfl, ?_, ?_, ?_⟩
  · rw [extract_paragraphs_from_xml, List.length_map]
    rfl
  · intro x hx hp
    exact List.mem_map_of_mem _ (List.mem_filter.mpr ⟨hx, hp⟩)
  · intro p hp hnone
    rw [extract_paragraph_text]
    have htoks : ∀ tok ∈ p.iterNodes.map nodeToken, tok = [] := by
      intro tok htok
      obtain ⟨n, hn, rfl⟩ := List.mem_map.mp htok
      exact nodeToken_eq_nil (hnone n hn)
    rw [concatAll_eq_nil htoks]
    rfl

/-- Witness for C1 at a concrete tree: the table-nested text paragraph's
line is present in the output, the nested empty paragraph yields the empty
string, and the output length matches the two paragraph descendants. -/
theorem c1_paragraph_lines_witness :
    extract_paragraph_text (paraEl [runEl "hi".toList])
        ∈ extract_paragraphs_from_xml sampleTableRoot ∧
    extract_paragraph_text sampleEmptyPara = [] ∧
    (extract_paragraphs_from_xml sampleTableRoot).length = 2 := by
  refine ⟨?_, ?_, ?_⟩
  · refine (c1_paragraph_lines sampleTableRoot).2.2.1 _ ?_ (by decide)
    exact List.Mem.tail _ (List.Mem.head _)
  · refine (c1_paragraph_lines sampleTableRoot).2.2.2 sampleEmptyPara ?_ (by decide)
    exact List.Mem.tail _ (List.Mem.head _)
  · have hl := (c1_paragraph_lines sampleTableRoot).2.1
    rw [hl]
    decide

/-- C2: the extracted line of a paragraph is the concatenation, in
depth-first encounter order, of its nodes' fragments (run text, one tab per
tab node, one newline per break node), the whole concatenation then
stripped: a tab node between two clean text runs yields one line with a
literal tab between the fragments, breaks at the very start and end of a
paragraph are stripped while an internal break survives as an embedded
newline, and an embedded newline splits into exactly two lines when
normalization splits lines. -/
theorem c2_paragraph_concat :
    (∀ p : Xml,
      extract_paragraph_text p = pyStrip (concatAll (p.iterNodes.map nodeToken))) ∧
    (∀ s1 s2 : List Char, cleanEnds s1 → cleanEnds s2 →
      extract_paragraph_text (paraEl [runEl s1, tabEl, runEl s2])
        = s1 ++ '\t' :: s2) ∧
    (∀ s1 s2 : List Char, cleanEnds s1 → cleanEnds s2 →
      extract_paragraph_text (paraEl [brEl, runEl s1, brEl, runEl s2, crEl])
        = s1 ++ '\n' :: s2) ∧
    (∀ s1 s2 : List Char, (∀ c ∈ s1, isLB c = false) → (∀ c ∈ s2, isLB c = false) →
      s2 ≠ [] → splitlines (s1 ++ '\n' :: s2) = [s1, s2]) := by
  refine ⟨fun p => rfl, ?_, ?_, fun s1 s2 h1 h2 hne => splitlines_mid h1 h2 hne⟩
  · intro s1 s2 hc1 hc2
    obtain ⟨hne1, hh1, hl1⟩ := hc1
    obtain ⟨hne2, hh2, hl2⟩ := hc2
    have hred : concatAll ((paraEl [runEl s1, tabEl, runEl s2]).iterNodes.map nodeToken)
        = s1 ++ '\t' :: s2 := by
      simp [paraEl, runEl, tabEl, Xml.iterNodes, Xml.iterList, concatAll,
        nodeToken_wP, nodeToken_wR, nodeToken_wT, nodeToken_wTab]
    rw [extract_paragraph_text, hred]
    apply pyStrip_eq_self
    · intro c hc
      rw [headChar_append _ hne1] at hc
      exact hh1 c hc
    · intro c hc
      rw [lastChar_append s1 (by simp), lastChar_cons hne2] at hc
      exact hl2 c hc
  · intro s1 s2 hc1 hc2
    obtain ⟨hne1, hh1, hl1⟩ := hc1
    obtain ⟨hne2, hh2, hl2⟩ := hc2
    have hred : concatAll ((paraEl [brEl, runEl s1, brEl, runEl s2, crEl]).iterNodes.map
          nodeToken)
        = '\n' :: ((s1 ++ '\n' :: s2) ++ ['\n']) := by
      simp [paraEl, runEl, brEl, crEl, Xml.iterNodes, Xml.iterList, concatAll,
        nodeToken_wP, nodeToken_wR, nodeToken_wT, nodeToken_wBr, nodeToken_wCr]
    rw [extract_paragraph_text, hred, pyStrip]
    rw [show ldropWhile isPyWS ('\n' :: ((s1 ++ '\n' :: s2) ++ ['\n']))
        = ldropWhile isPyWS ((s1 ++ '\n' :: s2) ++ ['\n']) from by
      simp [ldropWhile, show isPyWS '\n' = true from by decide]]
    rw [ldropWhile_eq_self ?_]
    · refine rstripWhile_concat_true ?_ (show isPyWS '\n' = true from by decide)
      intro c hc
      rw [lastChar_append s1 (by simp), lastChar_cons hne2] at hc
      exact hl2 c hc
    · intro c hc
      rw [headChar_append _ (by simp [hne1]), headChar_append _ hne1] at hc
      exact hh1 c hc

/-- Witness for C2 at concrete runs: the tab scenario produces one line
with a literal tab, the break scenario keeps only the internal break, and
the embedded newline splits into two lines. -/
theorem c2_paragraph_concat_witness :
    extract_paragraph_text (paraEl [runEl ['a'], tabEl, runEl ['b']])
        = ['a', '\t', 'b'] ∧
    extract_paragraph_text (paraEl [brEl, runEl ['a'], brEl, runEl ['b'], crEl])
        = ['a', '\n', 'b'] ∧
    splitlines (['a'] ++ '\n' :: ['b']) = [['a'], ['b']] := by
  have ca : cleanEnds ['a'] := cleanEnds_singleton (by decide)
  have cb : cleanEnds ['b'] := cleanEnds_singleton (by decide)
  exact ⟨c2_paragraph_concat.2.1 ['a'] ['b'] ca cb,
    c2_paragraph_concat.2.2.1 ['a'] ['b'] ca cb,
    c2_paragraph_concat.2.2.2 ['a'] ['b'] (by decide) (by decide) (by simp)⟩

/-! Lemmas about the batch converter loop. -/

theorem convertLoop_cons (x : List Char × DocxFile) (l : List (List Char × DocxFile))
    (st : ConvState) : convertLoop (x :: l) st = convertLoop l (convertStep st x) := rfl

theorem convertLoop_append (l1 l2 : List (List Char × DocxFile)) (st : ConvState) :
    convertLoop (l1 ++ l2) st = convertLoop l2 (convertLoop l1 st) := by
  simp [convertLoop, List.foldl_append]

theorem convertLoop_skip_comm (l : List (List Char × DocxFile)) :
    ∀ (c s : Nat) (o : List (List Char × List Char)),
    convertLoop l ⟨c, s + 1, o⟩
      = ⟨(convertLoop l ⟨c, s, o⟩).converted,
         (convertLoop l ⟨c, s, o⟩).skipped + 1,
         (convertLoop l ⟨c, s, o⟩).outputs⟩ := by
  induction l with
  | nil => intro c s o; rfl
  | cons x xs ih =>
    intro c s o
    rw [convertLoop_cons, convertLoop_cons]
    cases hx : extract_docx_text x.2 with
    | none =>
      have h1 : convertStep ⟨c, s + 1, o⟩ x = ⟨c, s + 1 + 1, o⟩ := by
        simp [convertStep, hx]
      have h2 : convertStep ⟨c, s, o⟩ x = ⟨c, s + 1, o⟩ := by
        simp [convertStep, hx]
      rw [h1, h2]
      exact ih c (s + 1) o
    | some d =>
      have h1 : convertStep ⟨c, s + 1, o⟩ x
          = ⟨c + 1, s + 1, o ++ [(stemTxt x.1, d.to_text)]⟩ := by
        simp [convertStep, hx]
      have h2 : convertStep ⟨c, s, o⟩ x
          = ⟨c + 1, s, o ++ [(stemTxt x.1, d.to_text)]⟩ := by
        simp [convertStep, hx]
      rw [h1, h2]
      exact ih (c + 1) s (o ++ [(stemTxt x.1, d.to_text)])

/-- C4: extraction yields the not-extractable signal exactly when the input
is not a valid zip archive, the main document entry is absent, or its bytes
fail to parse as XML; such a file produces no output, is counted as one
extra skip, and the remaining files of the batch are still processed. -/
theorem c4_not_extractable :
    (∀ f : DocxFile, extract_docx_text f = none ↔
      (f = .notZip ∨ ∃ es, f = .zip es ∧
        (es.find? (fun e => e.1 == DOCX_MAIN_DOCUMENT) = none ∨
         ∃ e, es.find? (fun e2 => e2.1 == DOCX_MAIN_DOCUMENT) = some e ∧
          e.2 = none))) ∧
    (∀ (pre post : List (List Char × DocxFile)) (name : List Char) (f : DocxFile)
        (st : ConvState), extract_docx_text f = none →
      convertLoop (pre ++ (name, f) :: post) st
        = ⟨(convertLoop (pre ++ post) st).converted,
           (convertLoop (pre ++ post) st).skipped + 1,
           (convertLoop (pre ++ post) st).outputs⟩) := by
  constructor
  · intro f
    cases f with
    | notZip => simp [extract_docx_text, read_xml_from_docx]
    | zip es =>
      constructor
      · intro h
        right
        refine ⟨es, rfl, ?_⟩
        cases hf : es.find? (fun e => e.1 == DOCX_MAIN_DOCUMENT) with
        | none => exact Or.inl rfl
        | some e =>
          right
          refine ⟨e, rfl, ?_⟩
          cases he : e.2 with
          | none => rfl
          | some x =>
            rw [extract_docx_text, read_xml_from_docx, hf] at h
            simp [he] at h
      · intro h
        rcases h with h | ⟨es2, heq, h2⟩
        · exact absurd h (by simp)
        · obtain rfl : es = es2 := by injection heq
          rcases h2 with hf | ⟨e, hf, he⟩
          · simp [extract_docx_text, read_xml_from_docx, hf]
          · simp [extract_docx_text, read_xml_from_docx, hf, he]
  · intro pre post name f st hf
    rw [convertLoop_append, convertLoop_cons, convertLoop_append]
    have hstep : convertStep (convertLoop pre st) (name, f)
        = ⟨(convertLoop pre st).converted, (convertLoop pre st).skipped + 1,
           (convertLoop pre st).outputs⟩ := by
      simp [convertStep, hf]
    rw [hstep]
    exact convertLoop_skip_comm post (convertLoop pre st).converted
      (convertLoop pre st).skipped (convertLoop pre st).outputs

/-- Witness for C4 at concrete inputs: a non-zip file is not extractable,
and a batch with one good package and one non-zip file converts the good
one, skips the bad one, and reports one converted and one skipped. -/
theorem c4_not_extractable_witness :
    extract_docx_text DocxFile.notZip = none ∧
    convertLoop
        [("good.docx".toList, sampleDoc), ("bad.docx".toList, DocxFile.notZip)]
        ⟨0, 0, []⟩
      = ⟨1, 1, [("good.txt".toList, "hi\n".toList)]⟩ := by
  have h0 : extract_docx_text DocxFile.notZip = none :=
    (c4_not_extractable.1 DocxFile.notZip).mpr (Or.inl rfl)
  refine ⟨h0, ?_⟩
  have h := c4_not_extractable.2 [("good.docx".toList, sampleDoc)] []
    "bad.docx".toList DocxFile.notZip ⟨0, 0, []⟩ h0
  exact h

/-! Lemmas about the name order and the supplementary-part loop. -/

theorem char_toNat_inj {c d : Char} (h : c.toNat = d.toNat) : c = d :=
  Char.ext_iff.mpr (UInt32.ext h)

theorem lexLe_total (a : List Char) : ∀ b : List Char,
    lexLe a b = true ∨ lexLe b a = true := by
  induction a with
  | nil => intro b; exact Or.inl rfl
  | cons c cs ih =>
    intro b
    cases b with
    | nil => exact Or.inr rfl
    | cons d ds =>
      cases hcd : c == d with
      | true =>
        have hceq : c = d := by simpa using hcd
        have hdc : (d == c) = true := by simp [hceq]
        rcases ih ds with h | h
        · left; simp [lexLe, hcd, h]
        · right; simp [lexLe, hdc, h]
      | false =>
        have hne : c ≠ d := by simpa using hcd
        have hdc : (d == c) = false := by simpa using (Ne.symm hne)
        have htn : c.toNat ≠ d.toNat := fun hEq => hne (char_toNat_inj hEq)
        rcases Nat.lt_or_ge c.toNat d.toNat with h | h
        · left; simp [lexLe, hcd, h]
        · right
          have : d.toNat < c.toNat := by omega
          simp [lexLe, hdc, this]

theorem lexLe_antisymm : ∀ {a b : List Char},
    lexLe a b = true → lexLe b a = true → a = b := by
  intro a
  induction a with
  | nil =>
    intro b hab hba
    cases b with
    | nil => rfl
    | cons d ds => simp [lexLe] at hba
  | cons c cs ih =>
    intro b hab hba
    cases b with
    | nil => simp [lexLe] at hab
    | cons d ds =>
      cases hcd : c == d with
      | true =>
        have hceq : c = d := by simpa using hcd
        subst hceq
        rw [lexLe] at hab hba
        simp only [beq_self_eq_true, if_true] at hab hba
        rw [ih hab hba]
      | false =>
        have hdc : (d == c) = false := by
          have hne : c ≠ d := by simpa using hcd
          simpa using (Ne.symm hne)
        rw [lexLe] at hab hba
        simp only [hcd, hdc, Bool.false_eq_true, if_false, decide_eq_true_eq] at hab hba
        omega

theorem lexLe_trans : ∀ {a b c : List Char},
    lexLe a b = true → lexLe b c = true → lexLe a c = true := by
  intro a
  induction a with
  | nil => intro b c hab hbc; rfl
  | cons x xs ih =>
    intro b c hab hbc
    cases b with
    | nil => simp [lexLe] at hab
    | cons y ys =>
      cases c with
      | nil => simp [lexLe] at hbc
      | cons z zs =>
        rw [lexLe] at hab hbc ⊢
        cases hxy : x == y with
        | true =>
          have hxeq : x = y := by simpa using hxy
          subst hxeq
          rw [hxy] at hab
          simp only [if_true] at hab
          cases hyz : x == z with
          | true =>
            rw [hyz] at hbc
            simp only [if_true] at hbc
            simp only [hyz, if_true]
            exact ih hab hbc
          | false =>
            rw [hyz] at hbc
            simp only [Bool.false_eq_true, if_false] at hbc
            simp only [hyz, Bool.false_eq_true, if_false]
            exact hbc
        | false =>
          rw [hxy] at hab
          simp only [Bool.false_eq_true, if_false, decide_eq_true_eq] at hab
          cases hyz : y == z with
          | true =>
            have hyeq : y = z := by simpa using hyz
            subst hyeq
            simp only [hxy, Bool.false_eq_true, if_false, decide_eq_true_eq]
            exact hab
          | false =>
            rw [hyz] at hbc
            simp only [Bool.false_eq_true, if_false, decide_eq_true_eq] at hbc
            cases hxz : x == z with
            | true =>
              have hxeq : x = z := by simpa using hxz
              subst hxeq
              omega
            | false =>
              simp only [hxz, Bool.false_eq_true, if_false, decide_eq_true_eq]
              omega

theorem lexLe_false_true {a b : List Char} (h : lexLe a b = false) :
    lexLe b a = true := by
  rcases lexLe_total a b with h2 | h2
  · rw [h2] at h
    simp at h
  · exact h2

theorem insertName_comm {a b : List Char} (hne : a ≠ b) :
    ∀ l : List (List Char),
    insertName a (insertName b l) = insertName b (insertName a l) := by
  intro l
  induction l with
  | nil =>
    cases hab : lexLe a b with
    | true =>
      have hba : lexLe b a = false := by
        cases hq : lexLe b a with
        | false => rfl
        | true => exact absurd (lexLe_antisymm hab hq) hne
      simp [insertName, hab, hba]
    | false =>
      have hba : lexLe b a = true := lexLe_false_true hab
      simp [insertName, hab, hba]
  | cons c t ih =>
    cases hbc : lexLe b c with
    | true =>
      cases hab : lexLe a b with
      | true =>
        have hac : lexLe a c = true := lexLe_trans hab hbc
        have hba : lexLe b a = false := by
          cases hq : lexLe b a with
          | false => rfl
          | true => exact absurd (lexLe_antisymm hab hq) hne
        simp [insertName, hbc, hab, hac, hba]
      | false =>
        have hba : lexLe b a = true := lexLe_false_true hab
        cases hac : lexLe a c with
        | true => simp [insertName, hbc, hab, hac, hba]
        | false => simp [insertName, hbc, hab, hac, hba]
    | false =>
      cases hac : lexLe a c with
      | true =>
        have hba2 : lexLe b a = false := by
          cases hq : lexLe b a with
          | false => rfl
          | true => exact absurd (lexLe_trans hq hac) (by simp [hbc])
        simp [insertName, hbc, hac, hba2]
      | false =>
        simp [insertName, hbc, hac, ih]

theorem mem_insertName {x a : List Char} : ∀ {l : List (List Char)},
    x ∈ insertName a l ↔ x = a ∨ x ∈ l := by
  intro l
  induction l with
  | nil => simp [insertName]
  | cons b t ih =>
    cases hab : lexLe a b with
    | true => simp [insertName, hab]
    | false =>
      simp only [insertName, hab, Bool.false_eq_true, if_false, List.mem_cons, ih]
      tauto

theorem mem_insSort {x : List Char} : ∀ {l : List (List Char)},
    x ∈ insSort l ↔ x ∈ l := by
  intro l
  induction l with
  | nil => simp [insSort]
  | cons a t ih =>
    rw [insSort, mem_insertName]
    simp [ih]

theorem insSort_append_middle {a : List Char} :
    ∀ (l1 : List (List Char)) (l2 : List (List Char)), a ∉ l1 →
    insSort (l1 ++ a :: l2) = insertName a (insSort (l1 ++ l2)) := by
  intro l1
  induction l1 with
  | nil => intro l2 h; rfl
  | cons b t ih =>
    intro l2 h
    have hne : b ≠ a := fun heq => h (heq ▸ List.mem_cons_self b t)
    rw [List.cons_append, insSort, ih l2 (fun hm => h (List.mem_cons_of_mem _ hm))]
    conv_rhs => rw [List.cons_append, insSort]
    exact insertName_comm hne (insSort (t ++ l2))

theorem find?_append_middle (p : List Char × Option Xml → Bool)
    {x : List Char × Option Xml} (hx : p x = false) :
    ∀ (l1 l2 : List (List Char × Option Xml)),
    (l1 ++ x :: l2).find? p = (l1 ++ l2).find? p := by
  intro l1 l2
  induction l1 with
  | nil => simp [List.find?, hx]
  | cons b t ih =>
    cases hb : p b with
    | true => simp [List.find?, hb]
    | false =>
      rw [List.cons_append, List.cons_append]
      simp only [List.find?, hb]
      exact ih

theorem find?_self_middle (nm : List Char) (v : Option Xml)
    (es2 : List (List Char × Option Xml)) :
    ∀ es1 : List (List Char × Option Xml), nm ∉ es1.map Prod.fst →
    (es1 ++ (nm, v) :: es2).find? (fun e => e.1 == nm) = some (nm, v) := by
  intro es1
  induction es1 with
  | nil =>
    intro h1
    simp [List.find?]
  | cons b t ih =>
    intro h1
    have hb : (b.1 == nm) = false := by
      have hne : b.1 ≠ nm := by
        intro heq
        apply h1
        rw [List.map_cons, ← heq]
        exact List.mem_cons_self _ _
      simpa using hne
    rw [List.cons_append]
    simp only [List.find?, hb]
    exact ih fun hm => h1 (by rw [List.map_cons]; exact List.mem_cons_of_mem _ hm)

theorem extraLoop_congr {f1 f2 : DocxFile} : ∀ {names : List (List Char)},
    (∀ nm ∈ names, read_xml_from_docx f1 nm = read_xml_from_docx f2 nm) →
    extraLoop f1 names = extraLoop f2 names := by
  intro names h
  induction names with
  | nil => rfl
  | cons a t ih =>
    rw [extraLoop, extraLoop, h a (List.mem_cons_self _ _)]
    rw [ih fun nm hm => h nm (List.mem_cons_of_mem _ hm)]

theorem extraLoop_insert_skip {f : DocxFile} {a : List Char}
    (h : read_xml_from_docx f a = none) : ∀ l : List (List Char),
    extraLoop f (insertName a l) = extraLoop f l := by
  intro l
  induction l with
  | nil => simp [insertName, extraLoop, h]
  | cons b t ih =>
    cases hab : lexLe a b with
    | true =>
      simp only [insertName, hab, if_true]
      rw [extraLoop, h]
      rfl
    | false =>
      simp only [insertName, hab, Bool.false_eq_true, if_false]
      rw [extraLoop, extraLoop, ih]

/-- C5: a supplementary (header, footer, footnotes or endnotes) part whose
bytes fail to parse contributes nothing, and extraction continues with the
remaining parts: the result equals the result for the same package with
that entry omitted, so such a failure never makes the document not
extractable.  Entry names are assumed unique in the package, matching the
name-keyed lookup of the zip reader. -/
theorem c5_supplementary_skip
    (es1 es2 : List (List Char × Option Xml)) (nm : List Char)
    (hsupp : isSupplementaryName nm = true)
    (h1 : nm ∉ es1.map Prod.fst) (h2 : nm ∉ es2.map Prod.fst) :
    extract_docx_text (.zip (es1 ++ (nm, none) :: es2))
      = extract_docx_text (.zip (es1 ++ es2)) := by
  have hnm : (nm == DOCX_MAIN_DOCUMENT) = false := by
    cases hq : nm == DOCX_MAIN_DOCUMENT with
    | false => rfl
    | true =>
      have heq : nm = DOCX_MAIN_DOCUMENT := by simpa using hq
      rw [heq, show isSupplementaryName DOCX_MAIN_DOCUMENT = false from by decide]
        at hsupp
      simp at hsupp
  have hfind : (es1 ++ (nm, none) :: es2).find? (fun e => e.1 == DOCX_MAIN_DOCUMENT)
      = (es1 ++ es2).find? (fun e => e.1 == DOCX_MAIN_DOCUMENT) :=
    find?_append_middle _ hnm es1 es2
  have hmainEq :
      read_xml_from_docx (DocxFile.zip (es1 ++ (nm, none) :: es2)) DOCX_MAIN_DOCUMENT
        = read_xml_from_docx (DocxFile.zip (es1 ++ es2)) DOCX_MAIN_DOCUMENT := by
    simp only [read_xml_from_docx, hfind]
  have hreadnm :
      read_xml_from_docx (DocxFile.zip (es1 ++ (nm, none) :: es2)) nm = none := by
    simp only [read_xml_from_docx]
    rw [find?_self_middle nm none es2 es1 h1]
  have hread : ∀ q, q ≠ nm →
      read_xml_from_docx (DocxFile.zip (es1 ++ (nm, none) :: es2)) q
        = read_xml_from_docx (DocxFile.zip (es1 ++ es2)) q := by
    intro q hq
    have hqne : (nm == q) = false := by simpa using (Ne.symm hq)
    simp only [read_xml_from_docx]
    rw [find?_append_middle _ hqne es1 es2]
  have hnlL :
      ((DocxFile.zip (es1 ++ (nm, none) :: es2)).namelist).filter isSupplementaryName
        = ((es1.map Prod.fst).filter isSupplementaryName)
          ++ nm :: ((es2.map Prod.fst).filter isSupplementaryName) := by
    simp [DocxFile.namelist, List.filter_append, List.filter_cons, hsupp]
  have hnlR :
      ((DocxFile.zip (es1 ++ es2)).namelist).filter isSupplementaryName
        = ((es1.map Prod.fst).filter isSupplementaryName)
          ++ ((es2.map Prod.fst).filter isSupplementaryName) := by
    simp [DocxFile.namelist, List.filter_append]
  cases hmain : read_xml_from_docx (DocxFile.zip (es1 ++ es2)) DOCX_MAIN_DOCUMENT with
  | none =>
    simp only [extract_docx_text]
    rw [hmainEq, hmain]
  | some mainX =>
    simp only [extract_docx_text]
    rw [hmainEq, hmain]
    simp only [Option.some.injEq, DocxText.mk.injEq]
    apply congrArg
    rw [hnlL, hnlR]
    rw [insSort_append_middle ((es1.map Prod.fst).filter isSupplementaryName)
      ((es2.map Prod.fst).filter isSupplementaryName)
      (fun hm => h1 (List.mem_filter.mp hm).1)]
    rw [extraLoop_insert_skip hreadnm]
    apply extraLoop_congr
    intro q hq
    apply hread
    intro heq
    subst heq
    have hqm := mem_insSort.mp hq
    rcases List.mem_append.mp hqm with hm | hm
    · exact h1 (List.mem_filter.mp hm).1
    · exact h2 (List.mem_filter.mp hm).1

/-- Witness for C5 at a concrete package: adding a malformed
`word/header1.xml` entry to a one-part package leaves the extraction result
unchanged. -/
theorem c5_supplementary_skip_witness :
    isSupplementaryName "word/header1.xml".toList = true ∧
    extract_docx_text (.zip [(DOCX_MAIN_DOCUMENT, some sampleTableRoot),
        ("word/header1.xml".toList, none)])
      = extract_docx_text (.zip [(DOCX_MAIN_DOCUMENT, some sampleTableRoot)]) := by
  refine ⟨by decide, ?_⟩
  have h := c5_supplementary_skip [(DOCX_MAIN_DOCUMENT, some sampleTableRoot)] []
    "word/header1.xml".toList (by decide) (by decide) (by decide)
  exact h

/-- C3: for a readable package whose main part parses, extraction returns
the main part's paragraph lines first, followed by the paragraph lines of
the supplementary entries selected by the fixed name predicate, processed
in lexicographic order of entry name; in particular, with entries
`header2.xml` and `header1.xml` both present, header1's paragraphs precede
header2's and both follow all main-part paragraphs. -/
theorem c3_part_order :
    (∀ (es : List (List Char × Option Xml)) (e : List Char × Option Xml) (mainX : Xml),
      es.find? (fun en => en.1 == DOCX_MAIN_DOCUMENT) = some e → e.2 = some mainX →
      extract_docx_text (.zip es)
        = some ⟨extract_paragraphs_from_xml mainX
            ++ extraLoop (.zip es)
              (insSort (((DocxFile.zip es).namelist).filter isSupplementaryName))⟩) ∧
    (∀ mainX xA xB : Xml,
      extract_docx_text (.zip
          [(DOCX_MAIN_DOCUMENT, some mainX),
           ("word/header2.xml".toList, some xB),
           ("word/header1.xml".toList, some xA)])
        = some ⟨extract_paragraphs_from_xml mainX
            ++ (extract_paragraphs_from_xml xA
              ++ (extract_paragraphs_from_xml xB ++ []))⟩) := by
  constructor
  · intro es e mainX hfind hsome
    have hmain : read_xml_from_docx (.zip es) DOCX_MAIN_DOCUMENT = some mainX := by
      simp only [read_xml_from_docx, hfind, hsome]
    simp only [extract_docx_text, hmain]
  · intro mainX xA xB
    have hmain : read_xml_from_docx
        (.zip [(DOCX_MAIN_DOCUMENT, some mainX),
          ("word/header2.xml".toList, some xB),
          ("word/header1.xml".toList, some xA)]) DOCX_MAIN_DOCUMENT
        = some mainX := by
      simp [read_xml_from_docx, List.find?]
    have hr1 : read_xml_from_docx
        (.zip [(DOCX_MAIN_DOCUMENT, some mainX),
          ("word/header2.xml".toList, some xB),
          ("word/header1.xml".toList, some xA)]) "word/header1.xml".toList
        = some xA := by
      simp only [read_xml_from_docx, List.find?]
      rw [show (DOCX_MAIN_DOCUMENT == "word/header1.xml".toList) = false from by decide]
      rw [show ("word/header2.xml".toList == "word/header1.xml".toList) = false
        from by decide]
      simp
    have hr2 : read_xml_from_docx
        (.zip [(DOCX_MAIN_DOCUMENT, some mainX),
          ("word/header2.xml".toList, some xB),
          ("word/header1.xml".toList, some xA)]) "word/header2.xml".toList
        = some xB := by
      simp only [read_xml_from_docx, List.find?]
      rw [show (DOCX_MAIN_DOCUMENT == "word/header2.xml".toList) = false from by decide]
      simp
    have hfil : ((DocxFile.zip [(DOCX_MAIN_DOCUMENT, some mainX),
          ("word/header2.xml".toList, some xB),
          ("word/header1.xml".toList, some xA)]).namelist).filter isSupplementaryName
        = ["word/header2.xml".toList, "word/header1.xml".toList] := by
      simp only [DocxFile.namelist, List.map_cons, List.map_nil, List.filter]
      decide
    have hsort : insSort ["word/header2.xml".toList, "word/header1.xml".toList]
        = ["word/header1.xml".toList, "word/header2.xml".toList] := by
      decide
    simp only [extract_docx_text, hmain, hfil, hsort, extraLoop, hr1, hr2]

/-- Witness for C3 at a concrete package: the main part's two paragraphs
come first, then header1's paragraph, then header2's, even though the
header2 entry is listed before header1 in the archive. -/
theorem c3_part_order_witness :
    extract_docx_text (.zip [(DOCX_MAIN_DOCUMENT, some sampleTableRoot),
        ("word/header2.xml".toList, some sampleHdr2),
        ("word/header1.xml".toList, some sampleHdr1)])
      = some ⟨["hi".toList, [], "H1".toList, "H2".toList]⟩ := by
  have h := c3_part_order.2 sampleTableRoot sampleHdr1 sampleHdr2
  exact h.trans (by rfl)

/-- C8: merging a source directory holding exactly the text files `a.txt`,
`b.txt` and `c.txt` whose reads yield `A`, `B` and `C` concatenates them in
name order into the combined content `A\n\nB\n\nC` — the separator logic
appends nothing after the final entry — and returns the count 3.  The
directory is listed in scrambled order to exercise the name sort. -/
theorem c8_merge_three (C : Codecs) (dataA dataB dataC : List Nat)
    (hA : read_text_with_fallback C dataA = ['A'])
    (hB : read_text_with_fallback C dataB = ['B'])
    (hC : read_text_with_fallback C dataC = ['C']) :
    merge_txt_files C
        [("c.txt".toList, dataC), ("a.txt".toList, dataA), ("b.txt".toList, dataB)]
      = ("A\n\nB\n\nC".toList, 3) := by
  have hms : insSortTxt
      ([(("c.txt".toList : List Char), dataC), ("a.txt".toList, dataA),
        ("b.txt".toList, dataB)].filter
        (fun f => lendsWith (lowerName f.1) ".txt".toList))
      = [("a.txt".toList, dataA), ("b.txt".toList, dataB), ("c.txt".toList, dataC)] := by
    rw [List.filter_cons,
      if_pos (show lendsWith (lowerName "c.txt".toList) ".txt".toList = true by decide),
      List.filter_cons,
      if_pos (show lendsWith (lowerName "a.txt".toList) ".txt".toList = true by decide),
      List.filter_cons,
      if_pos (show lendsWith (lowerName "b.txt".toList) ".txt".toList = true by decide),
      List.filter_nil]
    rw [insSortTxt, insSortTxt, insSortTxt, insSortTxt]
    rw [insertTxt, insertTxt]
    rw [if_pos (show lexLe "a.txt".toList "b.txt".toList = true by decide)]
    rw [insertTxt,
      if_neg (show ¬ lexLe "c.txt".toList "a.txt".toList = true by decide),
      insertTxt,
      if_neg (show ¬ lexLe "c.txt".toList "b.txt".toList = true by decide),
      insertTxt]
  simp only [merge_txt_files, hms]
  simp [mergeGo, hA, hB, hC, lastEndsNl, lastChar, concatAll]

/-- Witness for C8 at concrete bytes under the `asciiCodecs` fixture. -/
theorem c8_merge_three_witness :
    merge_txt_files asciiCodecs
        [("c.txt".toList, [67]), ("a.txt".toList, [65]), ("b.txt".toList, [66])]
      = ("A\n\nB\n\nC".toList, 3) :=
  c8_merge_three asciiCodecs [65] [66] [67] (by decide) (by decide) (by decide)

/-- C9: the merge utility's read decodes by trying strict UTF-8 first, then
UTF-8 with byte-order mark, then GB18030, and when all three fail it
decodes as UTF-8 with undecodable bytes replaced; for every byte sequence
the result is a string (the function is total), so a decode failure never
aborts the merge.  The codec implementations live in the Python standard
library, outside this repository, and are abstracted as the `Codecs`
record. -/
theorem c9_encoding_fallback (C : Codecs) (data : List Nat) :
    (∀ s, C.utf8 data = some s → read_text_with_fallback C data = s) ∧
    (∀ s, C.utf8 data = none → C.utf8sig data = some s →
      read_text_with_fallback C data = s) ∧
    (∀ s, C.utf8 data = none → C.utf8sig data = none → C.gb18030 data = some s →
      read_text_with_fallback C data = s) ∧
    (C.utf8 data = none → C.utf8sig data = none → C.gb18030 data = none →
      read_text_with_fallback C data = C.utf8Replace data) := by
  refine ⟨?_, ?_, ?_, ?_⟩
  · intro s h1
    simp [read_text_with_fallback, h1]
  · intro s h1 h2
    simp [read_text_with_fallback, h1, h2]
  · intro s h1 h2 h3
    simp [read_text_with_fallback, h1, h2, h3]
  · intro h1 h2 h3
    simp [read_text_with_fallback, h1, h2, h3]

/-- Witness for C9 at concrete decoders: a byte sequence the first decoder
accepts is returned as decoded, and when every strict decoder fails, the
replacing decoder's result is returned. -/
theorem c9_encoding_fallback_witness :
    read_text_with_fallback asciiCodecs [104, 105] = "hi".toList ∧
    read_text_with_fallback
        ⟨fun _ => none, fun _ => none, fun _ => none, fun _ => ['x']⟩ [255]
      = ['x'] := by
  constructor
  · exact (c9_encoding_fallback asciiCodecs [104, 105]).1 "hi".toList rfl
  · exact (c9_encoding_fallback
      ⟨fun _ => none, fun _ => none, fun _ => none, fun _ => ['x']⟩ [255]).2.2.2
      rfl rfl rfl

end Word2txt
